import Mathlib

/-!
Verification development for the ontology graph-analytics core.

The TypeScript sources are embedded shallowly:

* machine numbers used for confidences and vector entries are modelled as
  exact rationals; similarity values (which pass through a square root)
  live in the real numbers;
* JavaScript generators are modelled as the finite lists of the values
  they yield (every generator in this code base is bounded by a take cap);
* functions that can throw are modelled in the `Except String` monad with
  the exact error strings of the source;
* the fresh random id attached to every result graph
  (`graph_` followed by random characters) is modelled by the fixed
  placeholder `freshGraphId`; no theorem inspects it.
-/

namespace Ontology

/-! ## Data model (src/types.ts)

Ids are namespaced strings; identity is string equality.  The `embedding`
field is nullable at runtime (entities are constructed before the
asynchronous embedding arrives), hence `Option`. -/

structure Property where
  id : String
  name : String
  description : String
  embedding : Option (List ℚ)
deriving DecidableEq

structure Node where
  id : String
  name : String
  description : String
  embedding : Option (List ℚ)
  properties : List Property
deriving DecidableEq

structure Edge where
  id : String
  name : String
  description : String
  embedding : Option (List ℚ)
  sourceId : String
  targetId : String
  properties : List Property
deriving DecidableEq

structure Graph where
  id : String
  nodes : List Node
  edges : List Edge
deriving DecidableEq

/-- Placeholder for the random id every operation attaches to its result
graph. -/
def freshGraphId : String := "graph_fresh"

/-! ## Propagation-table update of the inference engine

`combineConfidences` and the suggestion-processing block of `infer`
(the propagation engine).  The source finds the first table entry whose
property id matches the suggestion and mutates it in place:

    existing.confidence = combineConfidences(existing.confidence, suggestion.confidence);
    if (suggestion.confidence > existing.confidence) existing.from = suggestion.from;

Note the sequencing: the comparison reads the already-combined
confidence. -/

structure Propagation where
  property : Property
  confidence : ℚ
  /-- source field `from` (a Lean keyword) -/
  from_ : String
deriving DecidableEq

def combineConfidences (conf1 conf2 : ℚ) : ℚ :=
  conf1 + conf2 - conf1 * conf2

/-- The in-place update performed on the table entry that matched the
suggestion's property id, with the source's statement order. -/
def updateExisting (existing suggestion : Propagation) : Propagation :=
  let newConfidence := combineConfidences existing.confidence suggestion.confidence
  let newFrom := if suggestion.confidence > newConfidence then suggestion.from_ else existing.from_
  { property := existing.property, confidence := newConfidence, from_ := newFrom }

/-- Processing of one accepted suggestion against a vertex's table entry:
a brand-new property id is appended, a matching id has its (first)
entry updated in place. -/
def applySuggestion (entries : List Propagation) (suggestion : Propagation) : List Propagation :=
  match entries with
  | [] => [suggestion]
  | p :: rest =>
    if p.property.id = suggestion.property.id then
      updateExisting p suggestion :: rest
    else
      p :: applySuggestion rest suggestion

/-! ## Lazy candidate enumerator (src/iter.ts)

`cartesianProduct` walks a mixed-radix counter over the input lists,
yielding one tuple per counter value; the counter increments its last
digit first.  The loop is embedded with an explicit step count that the
top-level entry point sets to the exact number of iterations. -/

/-- One tuple of the product: `indices.map((index, arrayIndex) => arrays[arrayIndex]![index]!)`. -/
def tupleAt [Inhabited α] (arrays : List (List α)) (indices : List ℕ) : List α :=
  (arrays.zip indices).map fun p => p.1.getD p.2 default

/-- The carry loop `for (let i = arrays.length - 1; i >= 0 && carry; i--)`,
expressed on the reversed (least-significant-first) list of
digit/size pairs.  `none` is the terminal carry-out. -/
def incLE : List (ℕ × ℕ) → Option (List ℕ)
  | [] => none
  | (i, s) :: rest =>
    if i + 1 < s then some ((i + 1) :: rest.map Prod.fst)
    else (incLE rest).map (fun l => 0 :: l)

/-- Mixed-radix increment of big-endian `indices` against `sizes`. -/
def increment (indices sizes : List ℕ) : Option (List ℕ) :=
  (incLE ((indices.zip sizes).reverse)).map List.reverse

/-- The `while (true)` body: yield the current combination, then
increment; stop on carry-out.  `steps` bounds the number of yields and is
set to the full product size by `cartesianProduct`. -/
def cpGo [Inhabited α] (arrays : List (List α)) (sizes : List ℕ) : List ℕ → ℕ → List (List α)
  | _, 0 => []
  | indices, steps + 1 =>
    tupleAt arrays indices ::
      match increment indices sizes with
      | none => []
      | some indices' => cpGo arrays sizes indices' steps

def cartesianProduct [Inhabited α] : List (List α) → List (List α)
  | [] => []
  | arrays@(_ :: _) =>
    if arrays.any List.isEmpty then []
    else cpGo arrays (arrays.map List.length) (arrays.map fun _ => 0) (arrays.map List.length).prod

/-- Modelled from the spec: "every combination of one element per input
list, in mixed-radix counting order over the last list varying fastest".
The comparison definition for the enumeration-order claim. -/
def specProduct : List (List α) → List (List α)
  | [] => [[]]
  | a :: rest => a.flatMap fun x => (specProduct rest).map (x :: ·)

/-! ## Bounded incident-edge iteration (src/index.ts iterateEdges) -/

def DEFAULT_N : ℕ := 10

/-- The loop of `iterateEdges`: `remaining` is `n - i`; the `i >= n`
check happens before each edge is examined. -/
def iterateEdgesGo (subsetSet : List String) : List Edge → ℕ → List Edge
  | _, 0 => []
  | [], _ + 1 => []
  | e :: rest, remaining + 1 =>
    if subsetSet.contains e.sourceId && subsetSet.contains e.targetId then
      e :: iterateEdgesGo subsetSet rest remaining
    else
      iterateEdgesGo subsetSet rest (remaining + 1)

def iterateEdgesList (graph : Graph) (subset : List String) (n : ℕ) : Except String (List Edge) :=
  match subset with
  | [] => .error "Subset has no nodes"
  | _ :: _ => .ok (iterateEdgesGo subset graph.edges n)

def rankLE : List (ℕ × ℕ) → ℕ
  | [] => 0
  | (i, s) :: rest => i + s * rankLE rest

def prodLE : List (ℕ × ℕ) → ℕ
  | [] => 1
  | (_, s) :: rest => s * prodLE rest

def rankBE : List ℕ → List ℕ → ℕ
  | i :: is, _ :: ss => i * ss.prod + rankBE is ss
  | _, _ => 0

/-! ## Reachability extractor (src/index.ts incident)

The iterative DFS keeps an explicit stack (popped from the end, modelled
as the head of a list, so the start list is reversed on entry) and a
visited set (modelled as a list without duplicates).  The loop is
embedded with a step counter; `dfs` passes a bound proved sufficient in
`dfsAux_isSome`, so the loop always runs to its natural end. -/

def dfsAux (edges : List Edge) : ℕ → List String → List String → Option (List String)
  | _, [], visited => some visited
  | 0, _ :: _, _ => none
  | fuel + 1, current :: stack, visited =>
    if visited.contains current then
      dfsAux edges fuel stack visited
    else
      let visited' := current :: visited
      let pushes := (edges.filter fun e =>
        e.sourceId = current && !(visited'.contains e.targetId)).map (·.targetId)
      dfsAux edges fuel (pushes.reverse ++ stack) visited'

/-- Step bound: every loop iteration pops one entry, and entries are only
ever pushed when a new id (drawn from the start list or the edge
targets) enters the visited set. -/
def dfsFuel (edges : List Edge) (stack : List String) : ℕ :=
  stack.length + (edges.length + 1) * ((stack ++ edges.map (·.targetId)).dedup.length + 1)

def dfs (g : Graph) (startNodes : List String) : List String :=
  (dfsAux g.edges (dfsFuel g.edges startNodes.reverse) startNodes.reverse []).getD []

def reverseGraph (g : Graph) : Graph :=
  { id := g.id ++ "_reversed",
    nodes := g.nodes,
    edges := g.edges.map fun e =>
      { e with id := e.id ++ "_reversed", sourceId := e.targetId, targetId := e.sourceId } }

/-- The intersection list I = F ∩ B': forward-reachable vertices that can
also reach a target. -/
def incidentI (g : Graph) (sources targets : List String) : List String :=
  (dfs g sources).filter fun x => (dfs (reverseGraph g) targets).contains x

def incident (g : Graph) (sources targets : List String) : Graph :=
  if incidentI g sources targets = [] then
    { id := freshGraphId, nodes := [], edges := [] }
  else
    { id := freshGraphId,
      nodes := g.nodes.filter fun node => (incidentI g sources targets).contains node.id,
      edges := (g.edges.filter fun e =>
          (incidentI g sources targets).contains e.sourceId &&
          (incidentI g sources targets).contains e.targetId).filter fun e =>
        !(sources.contains e.targetId) && !(targets.contains e.sourceId) }

/-- One directed edge step of the graph's edge list. -/
def stepRel (edges : List Edge) (u v : String) : Prop :=
  ∃ e ∈ edges, e.sourceId = u ∧ e.targetId = v

/-- Decreasing measure of the DFS loop: stack entries still to pop plus
(weighted) ids that may yet enter the visited set. -/
def dfsMeasure (edges : List Edge) (stack visited : List String) : ℕ :=
  stack.length + (edges.length + 1) *
    ((stack ++ edges.map (·.targetId)).toFinset.filter (fun x => x ∉ visited)).card

def mkNode (i : String) : Node :=
  { id := i, name := i, description := "", embedding := none, properties := [] }

def mkEdge (i src tgt : String) : Edge :=
  { id := i, name := i, description := "", embedding := none,
    sourceId := src, targetId := tgt, properties := [] }

/-- The spec's reachability-boundary example graph X→A→B→C←Y. -/
def exampleGraph : Graph :=
  { id := "graph_example",
    nodes := [mkNode "node_X", mkNode "node_A", mkNode "node_B", mkNode "node_C",
      mkNode "node_Y"],
    edges := [mkEdge "edge_XA" "node_X" "node_A", mkEdge "edge_AB" "node_A" "node_B",
      mkEdge "edge_BC" "node_B" "node_C", mkEdge "edge_YC" "node_Y" "node_C"] }

def cexGraph : Graph :=
  { id := "graph_cex",
    nodes := [mkNode "node_S", mkNode "node_T", mkNode "node_X"],
    edges := [mkEdge "edge_ST" "node_S" "node_T", mkEdge "edge_DX" "node_D" "node_X",
      mkEdge "edge_XT" "node_X" "node_T"] }

/-! ## Similarity engine (src/math.ts) and matching engine (src/index.ts)

Vector entries are exact rationals; the square root sends magnitudes and
similarity scores into the reals, so the similarity-dependent
definitions are noncomputable (classical decidability of real
comparisons) but remain faithful translations. -/

def dotQ (a b : List ℚ) : ℚ := ((a.zip b).map fun p => p.1 * p.2).sum

def sumSqQ (a : List ℚ) : ℚ := (a.map fun x => x * x).sum

/-- The magnitude the source computes: sqrt of the sum of squares. -/
noncomputable def magnitudeR (a : List ℚ) : ℝ := Real.sqrt ((sumSqQ a : ℝ))

open scoped Classical in
noncomputable def cosineSimilarity (a b : List ℚ) : Except String ℝ :=
  if a.length ≠ b.length then .error "Vectors must have the same length"
  else if a.length = 0 then .ok 0
  else if magnitudeR a = 0 ∨ magnitudeR b = 0 then .ok 0
  else .ok ((dotQ a b : ℝ) / (magnitudeR a * magnitudeR b))

noncomputable def DEFAULT_THRESHOLD : ℝ := 0.5

structure NodeCandidate where
  referenceId : String
  candidateId : String
  similarity : ℝ

structure EdgeCandidate where
  referenceId : String
  candidateId : String
  similarity : ℝ

instance : Inhabited NodeCandidate := ⟨⟨"", "", 0⟩⟩

instance : Inhabited EdgeCandidate := ⟨⟨"", "", 0⟩⟩

open scoped Classical in
/-- `candidates.sort((a, b) => b.similarity - a.similarity)`: stable
descending sort by similarity. -/
noncomputable def sortCandidatesDesc (l : List NodeCandidate) : List NodeCandidate :=
  l.mergeSort fun a b => decide (b.similarity ≤ a.similarity)

open scoped Classical in
noncomputable def sortEdgeCandidatesDesc (l : List EdgeCandidate) : List EdgeCandidate :=
  l.mergeSort fun a b => decide (b.similarity ≤ a.similarity)

open scoped Classical in
/-- Loop body of `findNode`'s candidate collection. -/
noncomputable def findNodeStep (refId : String) (ne : List ℚ) (threshold : ℝ)
    (acc : List NodeCandidate) (graphNode : Node) : Except String (List NodeCandidate) :=
  match graphNode.embedding with
  | none => Except.error "node must be ready"
  | some ge => do
    let similarity ← cosineSimilarity ne ge
    if threshold ≤ similarity then
      pure (acc ++
        [({ referenceId := refId, candidateId := graphNode.id,
            similarity := similarity } : NodeCandidate)])
    else
      pure acc

noncomputable def findNode (graph : Graph) (node : Node) (threshold : ℝ) :
    Except String (Option Node) :=
  match node.embedding with
  | none => .error "node must be ready"
  | some ne => do
    let candidates ← graph.nodes.foldlM (findNodeStep node.id ne threshold) []
    if candidates.length = 0 then
      pure none
    else
      match (sortCandidatesDesc candidates).head? with
      | none => pure none
      | some best => pure (graph.nodes.find? fun n => n.id = best.candidateId)

noncomputable def containsNode (graph : Graph) (node : Node) (threshold : ℝ) :
    Except String Bool :=
  (findNode graph node threshold).map Option.isSome

open scoped Classical in
/-- Loop body of `findEdge`'s candidate collection. -/
noncomputable def findEdgeStep (refId : String) (ee : List ℚ) (threshold : ℝ)
    (acc : List EdgeCandidate) (ce : Edge) : Except String (List EdgeCandidate) :=
  match ce.embedding with
  | none => Except.error "node must be ready"
  | some cee => do
    let similarity ← cosineSimilarity ee cee
    if threshold ≤ similarity then
      pure (acc ++
        [({ referenceId := refId, candidateId := ce.id,
            similarity := similarity } : EdgeCandidate)])
    else
      pure acc

noncomputable def findEdge (graph : Graph) (source target : Node) (edge : Edge)
    (threshold : ℝ) : Except String (Option Edge) :=
  match edge.embedding with
  | none => .error "edge must be ready"
  | some ee => do
    let candidateSource ← findNode graph source threshold
    let candidateTarget ← findNode graph target threshold
    match candidateSource, candidateTarget with
    | some cs, some ct =>
      let candidateEdges := graph.edges.filter fun e =>
        e.sourceId = cs.id && e.targetId = ct.id
      if candidateEdges.length = 0 then
        pure none
      else do
        let candidates ← candidateEdges.foldlM (findEdgeStep edge.id ee threshold) []
        if candidates.length = 0 then
          pure none
        else
          match (sortEdgeCandidatesDesc candidates).head? with
          | none => pure none
          | some best => pure (graph.edges.find? fun e => e.id = best.candidateId)
    | _, _ => pure none

noncomputable def containsEdge (graph : Graph) (source target : Node) (edge : Edge)
    (threshold : ℝ) : Except String Bool :=
  (findEdge graph source target edge threshold).map Option.isSome

/-- Loop body of `intersect`'s node filter (JavaScript `filter` is a
sequential loop, modelled by a fold that appends kept entries). -/
noncomputable def intersectNodeStep (a : Graph) (acc : List Node) (node : Node) :
    Except String (List Node) := do
  let contained ← containsNode a node DEFAULT_THRESHOLD
  if contained then pure (acc ++ [node]) else pure acc

/-- Loop body of `intersect`'s edge filter. -/
noncomputable def intersectEdgeStep (a b : Graph) (acc : List Edge) (edge : Edge) :
    Except String (List Edge) :=
  match b.nodes.find? (fun n => n.id = edge.sourceId),
      b.nodes.find? (fun n => n.id = edge.targetId) with
  | some sourceNode, some targetNode => do
    let similarSource ← findNode a sourceNode DEFAULT_THRESHOLD
    let similarTarget ← findNode a targetNode DEFAULT_THRESHOLD
    match similarSource, similarTarget with
    | some _, some _ => do
      let contained ← containsEdge a sourceNode targetNode edge DEFAULT_THRESHOLD
      if contained then pure (acc ++ [edge]) else pure acc
    | _, _ => pure acc
  | _, _ => pure acc

/-- `intersect`: the nodes and edges of b that are similarity-contained
in a. -/
noncomputable def intersect (a b : Graph) : Except String Graph := do
  let nodes ← b.nodes.foldlM (intersectNodeStep a) []
  let edges ← b.edges.foldlM (intersectEdgeStep a b) []
  pure { id := freshGraphId, nodes := nodes, edges := edges }

/-- Loop body of `merge`'s node pass. -/
noncomputable def mergeNodeStep (a : Graph) (acc : List Node) (nodeB : Node) :
    Except String (List Node) := do
  let contained ← containsNode a nodeB DEFAULT_THRESHOLD
  if contained then pure acc else pure (acc ++ [nodeB])

/-- Loop body of `merge`'s edge pass; edges of b with unresolvable
endpoints are skipped. -/
noncomputable def mergeEdgeStep (a b : Graph) (acc : List Edge) (edgeB : Edge) :
    Except String (List Edge) :=
  match b.nodes.find? (fun n => n.id = edgeB.sourceId),
      b.nodes.find? (fun n => n.id = edgeB.targetId) with
  | some sourceNodeB, some targetNodeB => do
    let contained ← containsEdge a sourceNodeB targetNodeB edgeB DEFAULT_THRESHOLD
    if contained then pure acc else pure (acc ++ [edgeB])
  | _, _ => pure acc

/-- `merge`: all of a's nodes/edges plus the not-already-contained ones
of b. -/
noncomputable def merge (a b : Graph) : Except String Graph := do
  let nodes ← b.nodes.foldlM (mergeNodeStep a) a.nodes
  let edges ← b.edges.foldlM (mergeEdgeStep a b) a.edges
  pure { id := freshGraphId, nodes := nodes, edges := edges }

/-- The duplicate-id scan of `isValidGraph` (a loop with a seen-set). -/
def hasDupIds : List String → List String → Bool
  | [], _ => false
  | x :: rest, seen => if seen.contains x then true else hasDupIds rest (x :: seen)

def isValidGraph (g : Graph) : Bool :=
  !(hasDupIds (g.nodes.map (·.id)) []) && !(hasDupIds (g.edges.map (·.id)) [])

open scoped Classical in
noncomputable def similarNodesList (graph query : Graph) (n : ℕ) (threshold : ℝ) :
    Except String (List (List NodeCandidate)) :=
  if graph.nodes.length = 0 then .error "Graph has no nodes"
  else if query.nodes.length = 0 then .error "Query has no nodes"
  else do
    let candidates_ij ← query.nodes.foldlM (fun acc queryNode =>
      match queryNode.embedding with
      | none => Except.error "query node must be ready"
      | some qe => do
        let candidates_i ← graph.nodes.foldlM (fun acc2 graphNode =>
          match graphNode.embedding with
          | none => Except.error "graph node must be ready"
          | some ge => do
            let similarity ← cosineSimilarity qe ge
            if similarity < threshold then
              pure acc2
            else
              pure (acc2 ++
                [({ referenceId := queryNode.id, candidateId := graphNode.id,
                    similarity := similarity } : NodeCandidate)])) []
        pure (acc ++ [sortCandidatesDesc candidates_i])) []
    pure ((cartesianProduct candidates_ij).take n)

open scoped Classical in
noncomputable def similarEdgesList (graph query : Graph)
    (nodeCandidates : List NodeCandidate) (n : ℕ) (threshold : ℝ) :
    Except String (List (List EdgeCandidate)) := do
  -- Map.set with insertion order: a later candidate for the same
  -- reference id overwrites an earlier one
  let nodeMapping := fun qid =>
    (nodeCandidates.reverse.find? fun c => c.referenceId = qid).map (·.candidateId)
  let incidentEdges ← iterateEdgesList graph (nodeCandidates.map (·.candidateId)) n
  let candidates_ij ← query.edges.foldlM (fun acc queryEdge =>
    match queryEdge.embedding with
    | none => Except.error "graph edge must be ready"
    | some qe =>
      match nodeMapping queryEdge.sourceId, nodeMapping queryEdge.targetId with
      | some expectedSourceId, some expectedTargetId => do
        let candidates_i ← incidentEdges.foldlM (fun acc2 graphEdge =>
          match graphEdge.embedding with
          | none => Except.error "graph edge must be ready"
          | some ge =>
            if graphEdge.sourceId = expectedSourceId ∧
                graphEdge.targetId = expectedTargetId then do
              let similarity ← cosineSimilarity qe ge
              if similarity < threshold then
                pure acc2
              else
                pure (acc2 ++
                  [({ referenceId := queryEdge.id, candidateId := graphEdge.id,
                      similarity := similarity } : EdgeCandidate)])
            else
              pure acc2) []
        pure (acc ++ [sortEdgeCandidatesDesc candidates_i])
      | _, _ => pure acc) []
  pure ((cartesianProduct candidates_ij).take n)

def defaultNode : Node :=
  { id := "", name := "", description := "", embedding := none, properties := [] }

def defaultEdge : Edge :=
  { id := "", name := "", description := "", embedding := none,
    sourceId := "", targetId := "", properties := [] }

instance : Inhabited Node := ⟨defaultNode⟩

instance : Inhabited Edge := ⟨defaultEdge⟩

/-- `similarSubGraphs` as the list of subgraphs the generator yields.
The node/edge lookup maps are built from entry lists, so for a
duplicated id the last entry wins. -/
noncomputable def similarSubGraphsList (graph query : Graph) (n : ℕ) (threshold : ℝ) :
    Except String (List Graph) := do
  let nodeLookup := fun nid => graph.nodes.reverse.find? fun nd => nd.id = nid
  let edgeLookup := fun eid => graph.edges.reverse.find? fun e => e.id = eid
  let nodeCandsList ← similarNodesList graph query n threshold
  nodeCandsList.foldlM (fun acc nodeCandidates =>
    if 0 < query.edges.length then do
      let edgeCandsList ← similarEdgesList graph query nodeCandidates n threshold
      pure (acc ++ edgeCandsList.map fun edgeCandidates =>
        { id := freshGraphId,
          nodes := nodeCandidates.map fun c => (nodeLookup c.candidateId).getD defaultNode,
          edges := edgeCandidates.map fun c => (edgeLookup c.candidateId).getD defaultEdge })
    else
      pure (acc ++
        [{ id := freshGraphId,
           nodes := nodeCandidates.map fun c => (nodeLookup c.candidateId).getD defaultNode,
           edges := [] }])) []

/-- `match(graph, query)`: validate, then take the first yielded
subgraph. -/
noncomputable def matchG (graph query : Graph) : Except String (Option Graph) :=
  if isValidGraph graph = false then .error "Invalid graph"
  else if isValidGraph query = false then .error "Invalid query graph"
  else do
    let subs ← similarSubGraphsList graph query DEFAULT_N DEFAULT_THRESHOLD
    pure (subs.take 1).head?

def dangEdge : Edge := mkEdge "edge_dang" "node_p" "node_q"

def dangGraph : Graph := { id := "graph_dang", nodes := [], edges := [dangEdge] }

def emptyG : Graph := { id := "graph_empty", nodes := [], edges := [] }

def zeroNode : Node :=
  { id := "node_z", name := "z", description := "", embedding := some [0],
    properties := [] }

def zeroGraph : Graph := { id := "graph_zero", nodes := [zeroNode], edges := [] }

def selfNode : Node :=
  { id := "node_s", name := "s", description := "", embedding := some [1],
    properties := [] }

def selfEdge : Edge :=
  { id := "edge_s", name := "s", description := "", embedding := some [1],
    sourceId := "node_s", targetId := "node_s", properties := [] }

def selfGraph : Graph :=
  { id := "graph_self", nodes := [selfNode], edges := [selfEdge] }

def dupGraph : Graph :=
  { id := "graph_dup", nodes := [mkNode "node_a", mkNode "node_a"], edges := [] }

def okGraph : Graph := { id := "graph_ok", nodes := [mkNode "node_a"], edges := [] }

def poolGraph : Graph :=
  { id := "graph_pool", nodes := [],
    edges := [mkEdge "edge_1" "node_a" "node_a", mkEdge "edge_2" "node_a" "node_a"] }

/-! ## Theorems for claim C1 -/

def propP : Property :=
  { id := "property_p", name := "p", description := "", embedding := none }

/-- Table entry: confidence 2/5 attributed to node_A. -/
def entryA : Propagation := { property := propP, confidence := 2/5, from_ := "node_A" }

/-- Accepted suggestion: confidence 9/10 from node_B. -/
def suggestionB : Propagation := { property := propP, confidence := 9/10, from_ := "node_B" }

/-- Claim C1, evaluated at the failing input.  The suggestion's property id
matches the existing entry, so the confidence becomes the probabilistic OR
2/5 + 9/10 - 2/5 * 9/10 = 47/50 — but the attributed source stays node_A,
although the suggestion's contributing confidence 9/10 exceeds the
entry's 2/5: the source compares the suggestion's confidence against the
already-combined confidence (which is never smaller), so the source
attribution never updates. -/
theorem infer_source_attribution_eval :
    applySuggestion [entryA] suggestionB =
      [{ property := propP, confidence := 47/50, from_ := "node_A" }] ∧
    entryA.confidence < suggestionB.confidence ∧
    suggestionB.from_ = "node_B" ∧ entryA.from_ = "node_A" ∧
    ("node_B" : String) ≠ "node_A" := by
  refine ⟨?_, by norm_num [entryA, suggestionB], rfl, rfl, by decide⟩
  show applySuggestion [entryA] suggestionB = _
  norm_num [applySuggestion, updateExisting, combineConfidences, entryA, suggestionB]

/-! ## Theorems for claim C9 -/

theorem iterateEdgesGo_eq_take_filter (subsetSet : List String) :
    ∀ (edges : List Edge) (n : ℕ),
      iterateEdgesGo subsetSet edges n =
        (edges.filter fun e => subsetSet.contains e.sourceId && subsetSet.contains e.targetId).take n
  | [], n => by cases n <;> simp [iterateEdgesGo]
  | e :: rest, 0 => by simp [iterateEdgesGo]
  | e :: rest, n + 1 => by
    by_cases h : (subsetSet.contains e.sourceId && subsetSet.contains e.targetId) = true
    · simp only [iterateEdgesGo, if_pos h, List.filter_cons, h, List.take_succ_cons]
      exact congrArg _ (iterateEdgesGo_eq_take_filter subsetSet rest n)
    · simp only [iterateEdgesGo, if_neg h, List.filter_cons, h]
      exact iterateEdgesGo_eq_take_filter subsetSet rest (n + 1)

/-- Claim C9: `similarEdges` draws its candidate pool from
`iterateEdges(graph, subset, { n })` (default n = 10), which yields
exactly the first `n` edges (in `graph.edges` order) whose endpoints both
lie in the candidate node set; it stops after `n` such edges, so any
qualifying edge beyond the first `n` is never part of the pool, whatever
its similarity. -/
theorem iterateEdges_pool_bounded (g : Graph) (subset : List String) (n : ℕ)
    (hne : subset ≠ []) :
    DEFAULT_N = 10 ∧
    iterateEdgesList g subset n =
      .ok ((g.edges.filter fun e =>
        subset.contains e.sourceId && subset.contains e.targetId).take n) ∧
    ∀ l, iterateEdgesList g subset n = .ok l →
      l.length ≤ n ∧
      ∀ e, (subset.contains e.sourceId && subset.contains e.targetId) = true →
        e ∉ (g.edges.filter fun e =>
          subset.contains e.sourceId && subset.contains e.targetId).take n →
        e ∉ l := by
  obtain ⟨s, rest, rfl⟩ : ∃ s rest, subset = s :: rest := by
    cases subset with
    | nil => exact absurd rfl hne
    | cons s rest => exact ⟨s, rest, rfl⟩
  refine ⟨rfl, ?_, ?_⟩
  · simp only [iterateEdgesList, iterateEdgesGo_eq_take_filter]
  · intro l hl
    have : l = (g.edges.filter fun e =>
        (s :: rest).contains e.sourceId && (s :: rest).contains e.targetId).take n := by
      simpa [iterateEdgesList, iterateEdgesGo_eq_take_filter] using hl.symm
    subst this
    refine ⟨?_, ?_⟩
    · exact List.length_take_le n _
    · intro e _ hnot
      exact hnot

/-! ## Theorems for claim C6

The mixed-radix counter is analysed through its rank (the number of
combinations yielded before the current one).  `rankLE` works on the
reversed, least-significant-first digit/size list that `incLE`
processes; `rankBE` is the big-endian counterpart used to index
`specProduct`. -/

theorem zip_map_fst_snd (l : List (α × β)) :
    List.zipWith Prod.mk (l.map Prod.fst) (l.map Prod.snd) = l := by
  induction l with
  | nil => rfl
  | cons p rest ih => simp [ih]

theorem zip_map_fst_snd' (l : List (α × β)) :
    (l.map Prod.fst).zip (l.map Prod.snd) = l :=
  zip_map_fst_snd l

theorem zip_reverse (xs : List α) (ys : List β) (h : xs.length = ys.length) :
    (xs.zip ys).reverse = xs.reverse.zip ys.reverse := by
  induction xs generalizing ys with
  | nil => simp
  | cons x xs ih =>
    cases ys with
    | nil => simp at h
    | cons y ys =>
      have hlen : xs.length = ys.length := by simpa using h
      simp only [List.zip_cons_cons, List.reverse_cons, ih ys hlen]
      rw [List.zip_append (by simpa using hlen)]
      simp

theorem prodLE_eq (l : List (ℕ × ℕ)) : prodLE l = (l.map Prod.snd).prod := by
  induction l with
  | nil => rfl
  | cons p rest ih => simp [prodLE, ih]

theorem rankLE_append_singleton (l : List (ℕ × ℕ)) (i s : ℕ) :
    rankLE (l ++ [(i, s)]) = rankLE l + prodLE l * i := by
  induction l with
  | nil => simp [rankLE, prodLE]
  | cons p rest ih => cases p with
    | mk j t => simp [rankLE, prodLE, ih]; ring

theorem rankLE_reverse_zip (idx sizes : List ℕ) (h : idx.length = sizes.length) :
    rankLE ((idx.zip sizes).reverse) = rankBE idx sizes := by
  induction idx generalizing sizes with
  | nil => cases sizes <;> simp [rankBE, rankLE] at h ⊢
  | cons i is ih =>
    cases sizes with
    | nil => simp at h
    | cons s ss =>
      have hlen : is.length = ss.length := by simpa using h
      have hsnd : (is.zip ss).map Prod.snd = ss := List.map_snd_zip is ss (le_of_eq hlen.symm)
      simp only [List.zip_cons_cons, List.reverse_cons, rankBE,
        rankLE_append_singleton, ih ss hlen, prodLE_eq]
      rw [List.map_reverse, hsnd, List.prod_reverse]
      ring

theorem prodLE_reverse_zip (idx sizes : List ℕ) (h : idx.length = sizes.length) :
    prodLE ((idx.zip sizes).reverse) = sizes.prod := by
  have hsnd : (idx.zip sizes).map Prod.snd = sizes := List.map_snd_zip idx sizes (le_of_eq h.symm)
  rw [prodLE_eq, List.map_reverse, hsnd, List.prod_reverse]

theorem rankLE_lt_prodLE (l : List (ℕ × ℕ)) (h : ∀ p ∈ l, p.1 < p.2) :
    rankLE l < prodLE l := by
  induction l with
  | nil => simp [rankLE, prodLE]
  | cons p rest ih =>
    obtain ⟨i, s⟩ := p
    have hi : i < s := h (i, s) (by simp)
    have hr : rankLE rest < prodLE rest := ih fun q hq => h q (by simp [hq])
    calc i + s * rankLE rest < s + s * rankLE rest := by omega
    _ = s * (rankLE rest + 1) := by ring
    _ ≤ s * prodLE rest := Nat.mul_le_mul_left s (by omega)
    _ = prodLE ((i, s) :: rest) := rfl

theorem incLE_none_rank (l : List (ℕ × ℕ)) (h : ∀ p ∈ l, p.1 < p.2)
    (hnone : incLE l = none) : rankLE l + 1 = prodLE l := by
  induction l with
  | nil => simp [rankLE, prodLE]
  | cons p rest ih =>
    obtain ⟨i, s⟩ := p
    have hi : i < s := h (i, s) (by simp)
    by_cases hc : i + 1 < s
    · simp [incLE, hc] at hnone
    · have hrest : incLE rest = none := by
        by_contra hne
        obtain ⟨r, hr⟩ := Option.ne_none_iff_exists'.mp hne
        simp [incLE, hc, hr] at hnone
      have := ih (fun q hq => h q (by simp [hq])) hrest
      have hs : i + 1 = s := by omega
      show i + s * rankLE rest + 1 = s * prodLE rest
      calc i + s * rankLE rest + 1 = s + s * rankLE rest := by omega
      _ = s * (rankLE rest + 1) := by ring
      _ = s * prodLE rest := by rw [this]

theorem incLE_some_rank (l : List (ℕ × ℕ)) (l' : List ℕ) (h : ∀ p ∈ l, p.1 < p.2)
    (hsome : incLE l = some l') :
    l'.length = l.length ∧
    (∀ p ∈ l'.zip (l.map Prod.snd), p.1 < p.2) ∧
    rankLE (l'.zip (l.map Prod.snd)) = rankLE l + 1 := by
  induction l generalizing l' with
  | nil => simp [incLE] at hsome
  | cons p rest ih =>
    obtain ⟨i, s⟩ := p
    have hi : i < s := h (i, s) (by simp)
    by_cases hc : i + 1 < s
    · have hl' : l' = (i + 1) :: rest.map Prod.fst := by
        simpa [incLE, hc] using hsome.symm
      subst hl'
      refine ⟨by simp, ?_, ?_⟩
      · intro q hq
        simp only [List.map_cons, List.zip_cons_cons, zip_map_fst_snd',
          List.mem_cons] at hq
        cases hq with
        | inl hq => rw [hq]; exact hc
        | inr hq => exact h q (List.mem_cons_of_mem _ hq)
      · simp only [List.map_cons, List.zip_cons_cons, zip_map_fst_snd',
          zip_map_fst_snd, rankLE]
        ring
    · have hrest : ∃ r, incLE rest = some r ∧ l' = 0 :: r := by
        cases hr : incLE rest with
        | none => simp [incLE, hc, hr] at hsome
        | some r =>
          refine ⟨r, rfl, ?_⟩
          simpa [incLE, hc, hr] using hsome.symm
      obtain ⟨r, hr, rfl⟩ := hrest
      obtain ⟨hlen, hvalid, hrank⟩ := ih r (fun q hq => h q (List.mem_cons_of_mem _ hq)) hr
      have hs : i + 1 = s := by omega
      refine ⟨by simpa using hlen, ?_, ?_⟩
      · intro q hq
        simp only [List.map_cons, List.zip_cons_cons, List.mem_cons] at hq
        rcases hq with rfl | hq
        · omega
        · exact hvalid q hq
      · have hrank' : rankLE (List.zipWith Prod.mk r (rest.map Prod.snd)) =
            rankLE rest + 1 := hrank
        simp only [List.map_cons, List.zip_cons_cons, rankLE, hrank, hrank']
        have hs' : s * (rankLE rest + 1) = i + s * rankLE rest + 1 := by
          calc s * (rankLE rest + 1) = s + s * rankLE rest := by ring
          _ = i + s * rankLE rest + 1 := by omega
        omega

theorem specProduct_length (arrays : List (List α)) :
    (specProduct arrays).length = (arrays.map List.length).prod := by
  induction arrays with
  | nil => simp [specProduct]
  | cons a rest ih =>
    simp only [specProduct, List.length_flatMap, List.map_cons, List.prod_cons]
    have hmap : List.map (List.length ∘ fun x => (specProduct rest).map (x :: ·)) a =
        List.map (fun _ => (specProduct rest).length) a := by
      simp [Function.comp_def]
    rw [hmap, List.map_const', List.sum_replicate, smul_eq_mul, ih]

theorem rankBE_lt (idx sizes : List ℕ) (h : List.Forall₂ (· < ·) idx sizes) :
    rankBE idx sizes < sizes.prod := by
  induction h with
  | nil => simp [rankBE]
  | @cons i s is ss hi hrest ih =>
    show i * ss.prod + rankBE is ss < s * ss.prod
    calc i * ss.prod + rankBE is ss < i * ss.prod + ss.prod := by omega
    _ = (i + 1) * ss.prod := by ring
    _ ≤ s * ss.prod := Nat.mul_le_mul_right _ (by omega)

theorem flatMap_block_getElem [Inhabited α] (sp : List (List α)) :
    ∀ (a : List α) (i r : ℕ), i < a.length → r < sp.length →
      (a.flatMap fun x => sp.map (x :: ·))[i * sp.length + r]? =
        (sp[r]?).map (a.getD i default :: ·)
  | [], i, r, hi, _ => by simp at hi
  | x :: a', 0, r, hi, hr => by
    simp only [List.flatMap_cons, Nat.zero_mul, Nat.zero_add, List.getElem?_append,
      List.length_map]
    rw [if_pos hr]
    simp [List.getElem?_map]
  | x :: a', i + 1, r, hi, hr => by
    simp only [List.flatMap_cons, List.getElem?_append, List.length_map]
    have hge : ¬ ((i + 1) * sp.length + r < sp.length) := by
      have : (i + 1) * sp.length = i * sp.length + sp.length := by ring
      omega
    rw [if_neg hge]
    have hidx : (i + 1) * sp.length + r - sp.length = i * sp.length + r := by
      have : (i + 1) * sp.length = i * sp.length + sp.length := by ring
      omega
    rw [hidx]
    have hi' : i < a'.length := by simpa using hi
    rw [flatMap_block_getElem sp a' i r hi' hr]
    rfl

theorem specProduct_getElem [Inhabited α] (arrays : List (List α)) :
    ∀ idx : List ℕ, List.Forall₂ (· < ·) idx (arrays.map List.length) →
      (specProduct arrays)[rankBE idx (arrays.map List.length)]? =
        some (tupleAt arrays idx) := by
  induction arrays with
  | nil =>
    intro idx h
    cases h
    simp [specProduct, rankBE, tupleAt]
  | cons a rest ih =>
    intro idx h
    rw [List.map_cons] at h
    cases h with
    | @cons i _ is _ hi hrest =>
      have hr : rankBE is (rest.map List.length) < (rest.map List.length).prod :=
        rankBE_lt is _ hrest
      have hsp : (specProduct rest).length = (rest.map List.length).prod :=
        specProduct_length rest
      show (specProduct (a :: rest))[rankBE (i :: is) (a.length :: rest.map List.length)]? = _
      have hrank : rankBE (i :: is) (a.length :: rest.map List.length) =
          i * (specProduct rest).length + rankBE is (rest.map List.length) := by
        show i * (rest.map List.length).prod + _ = _
        rw [hsp]
      rw [hrank]
      show (a.flatMap fun x => (specProduct rest).map (x :: ·))[
        i * (specProduct rest).length + rankBE is (rest.map List.length)]? = _
      rw [flatMap_block_getElem (specProduct rest) a i _ hi (by omega), ih is hrest]
      show some (a.getD i default :: tupleAt rest is) = some (tupleAt (a :: rest) (i :: is))
      simp [tupleAt]

theorem cpGo_eq [Inhabited α] (arrays : List (List α)) :
    ∀ (steps : ℕ) (idx : List ℕ),
      List.Forall₂ (· < ·) idx (arrays.map List.length) →
      steps + rankBE idx (arrays.map List.length) = (arrays.map List.length).prod →
      cpGo arrays (arrays.map List.length) idx steps =
        (specProduct arrays).drop (rankBE idx (arrays.map List.length)) := by
  intro steps
  induction steps with
  | zero =>
    intro idx hvalid hsteps
    exact absurd hsteps (by have := rankBE_lt idx _ hvalid; omega)
  | succ steps ih =>
    intro idx hvalid hsteps
    have hlen : idx.length = (arrays.map List.length).length := hvalid.length_eq
    have hrlt := rankBE_lt idx _ hvalid
    have hsp := specProduct_length arrays
    have hdrop : (specProduct arrays).drop (rankBE idx (arrays.map List.length)) =
        tupleAt arrays idx ::
          (specProduct arrays).drop (rankBE idx (arrays.map List.length) + 1) := by
      have hlt : rankBE idx (arrays.map List.length) < (specProduct arrays).length := by
        omega
      rw [List.drop_eq_getElem_cons hlt]
      congr 1
      have h1 := specProduct_getElem arrays idx hvalid
      rw [List.getElem?_eq_getElem hlt] at h1
      exact Option.some.inj h1
    -- validity of the reversed pair list that incLE processes
    have hmem : ∀ p ∈ (idx.zip (arrays.map List.length)).reverse, p.1 < p.2 := by
      intro p hp
      rw [List.mem_reverse] at hp
      exact (List.forall₂_iff_zip.mp hvalid).2 hp
    have hsnd : ((idx.zip (arrays.map List.length)).reverse).map Prod.snd =
        (arrays.map List.length).reverse := by
      rw [List.map_reverse, List.map_snd_zip _ _ (le_of_eq hlen.symm)]
    show cpGo arrays (arrays.map List.length) idx (steps + 1) = _
    rw [hdrop]
    show tupleAt arrays idx :: _ = _
    cases hinc : increment idx (arrays.map List.length) with
    | none =>
      have hincle : incLE ((idx.zip (arrays.map List.length)).reverse) = none := by
        have := hinc
        unfold increment at this
        exact Option.map_eq_none'.mp this
      have hrank1 : rankBE idx (arrays.map List.length) + 1 = (arrays.map List.length).prod := by
        have := incLE_none_rank _ hmem hincle
        rwa [rankLE_reverse_zip _ _ hlen, prodLE_reverse_zip _ _ hlen] at this
      have : (specProduct arrays).drop (rankBE idx (arrays.map List.length) + 1) = [] := by
        apply List.drop_eq_nil_of_le
        omega
      rw [this]
    | some idx' =>
      obtain ⟨l', hl', hidx'⟩ : ∃ l',
          incLE ((idx.zip (arrays.map List.length)).reverse) = some l' ∧
            idx' = l'.reverse := by
        have := hinc
        unfold increment at this
        obtain ⟨l', h1, h2⟩ := Option.map_eq_some'.mp this
        exact ⟨l', h1, h2.symm⟩
      obtain ⟨hlen', hvalid', hrank'⟩ := incLE_some_rank _ l' hmem hl'
      rw [hsnd] at hvalid' hrank'
      have hlenl' : l'.length = idx.length := by
        rw [hlen', List.length_reverse, List.length_zip, ← hlen, Nat.min_self]
      have hlenidx' : idx'.length = (arrays.map List.length).length := by
        rw [hidx']; simpa using hlenl'.trans hlen
      -- reversed pair list of idx' is the pair list incLE produced
      have hzipeq : (idx'.zip (arrays.map List.length)).reverse =
          l'.zip ((arrays.map List.length).reverse) := by
        rw [zip_reverse _ _ hlenidx', hidx', List.reverse_reverse]
      have hranknew : rankBE idx' (arrays.map List.length) =
          rankBE idx (arrays.map List.length) + 1 := by
        rw [← rankLE_reverse_zip _ _ hlenidx', hzipeq, hrank',
          rankLE_reverse_zip _ _ hlen]
      have hvalidnew : List.Forall₂ (· < ·) idx' (arrays.map List.length) := by
        rw [List.forall₂_iff_zip]
        refine ⟨hlenidx', ?_⟩
        intro a b hab
        have : (a, b) ∈ (idx'.zip (arrays.map List.length)).reverse := by
          rwa [List.mem_reverse]
        rw [hzipeq] at this
        exact hvalid' _ this
      have hstep' : steps + rankBE idx' (arrays.map List.length) =
          (arrays.map List.length).prod := by
        rw [hranknew]; omega
      have := ih idx' hvalidnew hstep'
      rw [hranknew] at this
      show tupleAt arrays idx ::
        cpGo arrays (arrays.map List.length) idx' steps = _
      rw [this]

theorem cartesianProduct_eq_specProduct [Inhabited α] (arrays : List (List α))
    (hne : arrays ≠ []) (hall : ∀ a ∈ arrays, a ≠ []) :
    cartesianProduct arrays = specProduct arrays := by
  obtain ⟨a0, rest, rfl⟩ : ∃ a0 rest, arrays = a0 :: rest := by
    cases arrays with
    | nil => exact absurd rfl hne
    | cons a0 rest => exact ⟨a0, rest, rfl⟩
  have hany : (a0 :: rest).any List.isEmpty = false := by
    rw [List.any_eq_false]
    intro x hx
    simpa [List.isEmpty_iff] using hall x hx
  show cartesianProduct (a0 :: rest) = _
  rw [cartesianProduct, hany]
  simp only [Bool.false_eq_true, if_false]
  have hzeros : ∀ l : List (List α),
      rankBE (l.map fun _ => 0) (l.map List.length) = 0 := by
    intro l
    induction l with
    | nil => rfl
    | cons a l ih => show 0 * _ + _ = 0; simpa using ih
  have hvalid : List.Forall₂ (· < ·) ((a0 :: rest).map fun _ => 0)
      ((a0 :: rest).map List.length) := by
    rw [List.forall₂_iff_zip]
    refine ⟨by simp, ?_⟩
    intro a b hab
    rw [List.zip_map'] at hab
    obtain ⟨x, hx, hxe⟩ := List.mem_map.mp hab
    injection hxe with h1 h2
    subst h1
    subst h2
    exact List.length_pos.mpr (hall x hx)
  have hgo := cpGo_eq (a0 :: rest) ((a0 :: rest).map List.length).prod
    ((a0 :: rest).map fun _ => 0) hvalid (by rw [hzeros]; omega)
  rw [hgo, hzeros, List.drop_zero]

/-- Claim C6: `cartesianProduct` yields nothing when the list of lists is
empty or when any input list is empty; when all input lists are
non-empty it yields exactly one tuple per combination (one element per
input list), enumerated in mixed-radix counting order with the last list
varying fastest (`specProduct`), for a total of the product of the input
lengths. -/
theorem cartesianProduct_spec [Inhabited α] :
    (cartesianProduct ([] : List (List α)) = []) ∧
    (∀ arrays : List (List α), (∃ a ∈ arrays, a = []) → cartesianProduct arrays = []) ∧
    (∀ arrays : List (List α), arrays ≠ [] → (∀ a ∈ arrays, a ≠ []) →
      cartesianProduct arrays = specProduct arrays ∧
      (cartesianProduct arrays).length = (arrays.map List.length).prod) := by
  refine ⟨rfl, ?_, ?_⟩
  · intro arrays ⟨a, ha, hae⟩
    cases arrays with
    | nil => simp at ha
    | cons a0 rest =>
      have hany : (a0 :: rest).any List.isEmpty = true := by
        rw [List.any_eq_true]
        exact ⟨a, ha, by simp [hae]⟩
      rw [cartesianProduct, hany]
      simp
  · intro arrays hne hall
    have heq := cartesianProduct_eq_specProduct arrays hne hall
    exact ⟨heq, by rw [heq, specProduct_length]⟩

/-- Witness for C6 at a concrete input. -/
theorem cartesianProduct_spec_witness :
    cartesianProduct [[1, 2], [3]] = specProduct [[1, 2], [3]] ∧
    (cartesianProduct ([[1, 2], [3]] : List (List ℕ))).length =
      ([[1, 2], [3]].map List.length).prod :=
  (cartesianProduct_spec.2.2 [[1, 2], [3]] (by decide) (by decide))

theorem dfsAux_isSome (edges : List Edge) :
    ∀ (fuel : ℕ) (stack visited : List String),
      dfsMeasure edges stack visited ≤ fuel →
      (dfsAux edges fuel stack visited).isSome := by
  intro fuel
  induction fuel with
  | zero =>
    intro stack visited hm
    cases stack with
    | nil => simp [dfsAux]
    | cons c t =>
      exfalso
      have : 1 ≤ dfsMeasure edges (c :: t) visited := by
        unfold dfsMeasure; simp; omega
      omega
  | succ fuel ih =>
    intro stack visited hm
    cases stack with
    | nil => simp [dfsAux]
    | cons c t =>
      by_cases hc : visited.contains c
      · show (dfsAux edges (fuel + 1) (c :: t) visited).isSome
        rw [dfsAux, if_pos hc]
        apply ih
        have hsub : ((t ++ edges.map (·.targetId)).toFinset.filter
            (fun x => x ∉ visited)).card ≤
            (((c :: t) ++ edges.map (·.targetId)).toFinset.filter
            (fun x => x ∉ visited)).card := by
          apply Finset.card_le_card
          apply Finset.filter_subset_filter
          intro x hx
          simp only [List.toFinset_append, Finset.mem_union, List.mem_toFinset] at hx ⊢
          rcases hx with hx | hx
          · exact Or.inl (List.mem_cons_of_mem _ hx)
          · exact Or.inr hx
        unfold dfsMeasure at hm ⊢
        simp only [List.length_cons] at hm
        have := Nat.mul_le_mul_left (edges.length + 1) hsub
        omega
      · show (dfsAux edges (fuel + 1) (c :: t) visited).isSome
        rw [dfsAux, if_neg hc]
        apply ih
        set T := edges.map (·.targetId) with hT
        set pushes := (edges.filter fun e =>
          e.sourceId = c && !((c :: visited).contains e.targetId)).map (·.targetId)
          with hpushes
        have hplen : pushes.length ≤ edges.length := by
          rw [hpushes, List.length_map]
          exact List.length_filter_le _ _
        set A := (((c :: t) ++ T).toFinset.filter (fun x => x ∉ visited)) with hA
        set A' := (((pushes.reverse ++ t) ++ T).toFinset.filter
          (fun x => x ∉ c :: visited)) with hA'
        have hcA : c ∈ A := by
          rw [hA]
          simp only [Finset.mem_filter, List.toFinset_append, Finset.mem_union,
            List.mem_toFinset]
          refine ⟨Or.inl (List.mem_cons_self _ _), ?_⟩
          simpa [List.elem_iff] using hc
        have hsub : A' ⊆ A.erase c := by
          intro x hx
          rw [hA'] at hx
          simp only [Finset.mem_filter, List.toFinset_append, Finset.mem_union,
            List.mem_toFinset, List.mem_reverse, List.mem_cons, not_or] at hx
          obtain ⟨hx1, hx2, hx3⟩ := hx
          rw [Finset.mem_erase, hA]
          refine ⟨hx2, ?_⟩
          simp only [Finset.mem_filter, List.toFinset_append, Finset.mem_union,
            List.mem_toFinset]
          refine ⟨?_, hx3⟩
          rcases hx1 with (hx1 | hx1) | hx1
          · -- a pushed id is an edge target
            right
            rw [hpushes] at hx1
            obtain ⟨e, he, rfl⟩ := List.mem_map.mp hx1
            exact List.mem_map.mpr ⟨e, List.mem_of_mem_filter he, rfl⟩
          · exact Or.inl (List.mem_cons_of_mem _ hx1)
          · exact Or.inr hx1
        have hcard : A'.card + 1 ≤ A.card := by
          have h1 := Finset.card_le_card hsub
          have h2 := Finset.card_erase_of_mem hcA
          have h3 : 1 ≤ A.card := Finset.card_pos.mpr ⟨c, hcA⟩
          omega
        have hmul : (edges.length + 1) * A'.card + (edges.length + 1) ≤
            (edges.length + 1) * A.card := by
          have := Nat.mul_le_mul_left (edges.length + 1) hcard
          calc (edges.length + 1) * A'.card + (edges.length + 1)
              = (edges.length + 1) * (A'.card + 1) := by ring
          _ ≤ (edges.length + 1) * A.card := this
        unfold dfsMeasure at hm ⊢
        rw [← hA'] at *
        rw [← hA] at hm
        simp only [List.length_append, List.length_cons, List.length_reverse] at hm ⊢
        omega

theorem dfs_eq_some (g : Graph) (start : List String) :
    dfsAux g.edges (dfsFuel g.edges start.reverse) start.reverse [] = some (dfs g start) := by
  have hmeas : dfsMeasure g.edges start.reverse [] ≤ dfsFuel g.edges start.reverse := by
    unfold dfsMeasure dfsFuel
    have hfilter : ((start.reverse ++ g.edges.map (·.targetId)).toFinset.filter
        (fun x => x ∉ ([] : List String))) =
        (start.reverse ++ g.edges.map (·.targetId)).toFinset := by
      apply Finset.filter_true_of_mem
      intro x _
      exact List.not_mem_nil x
    rw [hfilter, List.card_toFinset]
    have := Nat.mul_le_mul_left (g.edges.length + 1)
      (Nat.le_succ ((start.reverse ++ g.edges.map (·.targetId)).dedup.length))
    simp only [Nat.succ_eq_add_one] at this
    omega
  have := dfsAux_isSome g.edges _ _ _ hmeas
  obtain ⟨r, hr⟩ := Option.isSome_iff_exists.mp this
  rw [hr]
  unfold dfs
  rw [hr]
  simp

theorem dfsAux_mem_of_init (edges : List Edge) :
    ∀ (fuel : ℕ) (stack visited r : List String),
      dfsAux edges fuel stack visited = some r →
      ∀ x, x ∈ stack ∨ x ∈ visited → x ∈ r := by
  intro fuel
  induction fuel with
  | zero =>
    intro stack visited r hr x hx
    cases stack with
    | nil =>
      obtain rfl : visited = r := by simpa [dfsAux] using hr
      simpa using hx
    | cons c t => simp [dfsAux] at hr
  | succ fuel ih =>
    intro stack visited r hr x hx
    cases stack with
    | nil =>
      obtain rfl : visited = r := by simpa [dfsAux] using hr
      simpa using hx
    | cons c t =>
      by_cases hc : visited.contains c
      · rw [dfsAux, if_pos hc] at hr
        rcases hx with hx | hx
        · rcases List.mem_cons.mp hx with rfl | hx
          · exact ih t visited r hr x (Or.inr (List.elem_iff.mp hc))
          · exact ih t visited r hr x (Or.inl hx)
        · exact ih t visited r hr x (Or.inr hx)
      · rw [dfsAux, if_neg hc] at hr
        rcases hx with hx | hx
        · rcases List.mem_cons.mp hx with rfl | hx
          · exact ih _ _ r hr x (Or.inr (List.mem_cons_self _ _))
          · exact ih _ _ r hr x (Or.inl (List.mem_append_right _ hx))
        · exact ih _ _ r hr x (Or.inr (List.mem_cons_of_mem _ hx))

theorem dfsAux_sound (edges : List Edge) :
    ∀ (fuel : ℕ) (stack visited r : List String),
      dfsAux edges fuel stack visited = some r →
      ∀ x ∈ r, x ∈ visited ∨
        ∃ s ∈ stack, Relation.ReflTransGen (stepRel edges) s x := by
  intro fuel
  induction fuel with
  | zero =>
    intro stack visited r hr x hx
    cases stack with
    | nil =>
      obtain rfl : visited = r := by simpa [dfsAux] using hr
      exact Or.inl hx
    | cons c t => simp [dfsAux] at hr
  | succ fuel ih =>
    intro stack visited r hr x hx
    cases stack with
    | nil =>
      obtain rfl : visited = r := by simpa [dfsAux] using hr
      exact Or.inl hx
    | cons c t =>
      by_cases hc : visited.contains c
      · rw [dfsAux, if_pos hc] at hr
        rcases ih t visited r hr x hx with h | ⟨s, hs, hrtg⟩
        · exact Or.inl h
        · exact Or.inr ⟨s, List.mem_cons_of_mem _ hs, hrtg⟩
      · rw [dfsAux, if_neg hc] at hr
        rcases ih _ _ r hr x hx with h | ⟨s, hs, hrtg⟩
        · rcases List.mem_cons.mp h with rfl | h
          · exact Or.inr ⟨x, List.mem_cons_self _ _, Relation.ReflTransGen.refl⟩
          · exact Or.inl h
        · rcases List.mem_append.mp hs with hs | hs
          · -- s was pushed: it is a successor of c
            rw [List.mem_reverse] at hs
            obtain ⟨e, he, rfl⟩ := List.mem_map.mp hs
            have hef := List.of_mem_filter he
            simp only [Bool.and_eq_true, decide_eq_true_eq] at hef
            have hstep : stepRel edges c e.targetId :=
              ⟨e, List.mem_of_mem_filter he, hef.1, rfl⟩
            exact Or.inr ⟨c, List.mem_cons_self _ _, Relation.ReflTransGen.head hstep hrtg⟩
          · exact Or.inr ⟨s, List.mem_cons_of_mem _ hs, hrtg⟩

theorem dfsAux_closed (edges : List Edge) :
    ∀ (fuel : ℕ) (stack visited r : List String),
      dfsAux edges fuel stack visited = some r →
      (∀ x ∈ visited, ∀ y, stepRel edges x y → y ∈ visited ∨ y ∈ stack) →
      ∀ x ∈ r, ∀ y, stepRel edges x y → y ∈ r := by
  intro fuel
  induction fuel with
  | zero =>
    intro stack visited r hr hinv x hx y hstep
    cases stack with
    | nil =>
      obtain rfl : visited = r := by simpa [dfsAux] using hr
      rcases hinv x hx y hstep with h | h
      · exact h
      · simp at h
    | cons c t => simp [dfsAux] at hr
  | succ fuel ih =>
    intro stack visited r hr hinv x hx y hstep
    cases stack with
    | nil =>
      obtain rfl : visited = r := by simpa [dfsAux] using hr
      rcases hinv x hx y hstep with h | h
      · exact h
      · simp at h
    | cons c t =>
      by_cases hc : visited.contains c
      · rw [dfsAux, if_pos hc] at hr
        refine ih t visited r hr ?_ x hx y hstep
        intro u hu v hv
        rcases hinv u hu v hv with h | h
        · exact Or.inl h
        · rcases List.mem_cons.mp h with rfl | h
          · exact Or.inl (List.elem_iff.mp hc)
          · exact Or.inr h
      · rw [dfsAux, if_neg hc] at hr
        refine ih _ _ r hr ?_ x hx y hstep
        intro u hu v hv
        rcases List.mem_cons.mp hu with rfl | hu
        · -- u = c: its successors are either already visited or pushed
          by_cases hvv : v ∈ u :: visited
          · exact Or.inl hvv
          · right
            apply List.mem_append_left
            rw [List.mem_reverse]
            obtain ⟨e, he, hesrc, hetgt⟩ := hv
            apply List.mem_map.mpr
            refine ⟨e, List.mem_filter.mpr ⟨he, ?_⟩, hetgt⟩
            simp only [Bool.and_eq_true, decide_eq_true_eq]
            refine ⟨hesrc, ?_⟩
            simp only [Bool.not_eq_true']
            rw [← Bool.not_eq_true]
            intro hcont
            exact hvv (hetgt ▸ List.elem_iff.mp hcont)
        · rcases hinv u hu v hv with h | h
          · exact Or.inl (List.mem_cons_of_mem _ h)
          · rcases List.mem_cons.mp h with rfl | h
            · exact Or.inl (List.mem_cons_self _ _)
            · exact Or.inr (List.mem_append_right _ h)

/-- The visited set the DFS returns is exactly the set of vertices
reachable (along directed edges) from the start list. -/
theorem mem_dfs_iff (g : Graph) (start : List String) (x : String) :
    x ∈ dfs g start ↔ ∃ s ∈ start, Relation.ReflTransGen (stepRel g.edges) s x := by
  have hsome := dfs_eq_some g start
  constructor
  · intro hx
    rcases dfsAux_sound g.edges _ _ _ _ hsome x hx with h | ⟨s, hs, hrtg⟩
    · simp at h
    · exact ⟨s, List.mem_reverse.mp hs, hrtg⟩
  · rintro ⟨s, hs, hrtg⟩
    have hclosed := dfsAux_closed g.edges _ _ _ _ hsome
      (by intro u hu; simp at hu)
    have hstart : s ∈ dfs g start :=
      dfsAux_mem_of_init g.edges _ _ _ _ hsome s
        (Or.inl (List.mem_reverse.mpr hs))
    induction hrtg with
    | refl => exact hstart
    | tail hab hbc ihr => exact hclosed _ ihr _ hbc

/-! ## Theorems for claim C2 -/

/-- Claim C2: every edge of `incident`'s result avoids the boundary —
no result edge points into a source or out of a target, so each source
has in-degree 0 and each target out-degree 0 in the result; and on the
graph X→A→B→C←Y, `incident(g, [A], [C])` returns exactly nodes
{A, B, C} and edges {A→B, B→C}. -/
theorem incident_boundary :
    (∀ (g : Graph) (sources targets : List String),
      ∀ e ∈ (incident g sources targets).edges,
        e.targetId ∉ sources ∧ e.sourceId ∉ targets) ∧
    (∀ (g : Graph) (sources targets : List String), ∀ s ∈ sources,
      ((incident g sources targets).edges.filter fun e => e.targetId = s).length = 0) ∧
    (∀ (g : Graph) (sources targets : List String), ∀ t ∈ targets,
      ((incident g sources targets).edges.filter fun e => e.sourceId = t).length = 0) ∧
    (incident exampleGraph ["node_A"] ["node_C"]).nodes =
      [mkNode "node_A", mkNode "node_B", mkNode "node_C"] ∧
    (incident exampleGraph ["node_A"] ["node_C"]).edges =
      [mkEdge "edge_AB" "node_A" "node_B", mkEdge "edge_BC" "node_B" "node_C"] := by
  have hmain : ∀ (g : Graph) (sources targets : List String),
      ∀ e ∈ (incident g sources targets).edges,
        e.targetId ∉ sources ∧ e.sourceId ∉ targets := by
    intro g sources targets e he
    unfold incident at he
    split at he
    · simp at he
    · rw [List.mem_filter] at he
      have hb := he.2
      simp only [Bool.and_eq_true, Bool.not_eq_true'] at hb
      exact ⟨by simpa using hb.1, by simpa using hb.2⟩
  refine ⟨hmain, ?_, ?_, by decide, by decide⟩
  · intro g sources targets s hs
    rw [List.length_eq_zero, List.filter_eq_nil_iff]
    intro e he
    simp only [decide_eq_true_eq]
    intro heq
    exact (hmain g sources targets e he).1 (heq ▸ hs)
  · intro g sources targets t ht
    rw [List.length_eq_zero, List.filter_eq_nil_iff]
    intro e he
    simp only [decide_eq_true_eq]
    intro heq
    exact (hmain g sources targets e he).2 (heq ▸ ht)

/-- Witness for C2 at the example graph: edge A→B is in the result, and
the theorem instantiates to its boundary conditions. -/
theorem incident_boundary_witness :
    (mkEdge "edge_AB" "node_A" "node_B").targetId ∉ (["node_A"] : List String) ∧
    (mkEdge "edge_AB" "node_A" "node_B").sourceId ∉ (["node_C"] : List String) :=
  incident_boundary.1 exampleGraph ["node_A"] ["node_C"]
    (mkEdge "edge_AB" "node_A" "node_B") (by decide)

/-! ## Theorems for claim C3

The counterexample graph has a dangling edge reference: edge D→X names
source id node_D, which is not among the graph's nodes.  Passing node_D
as an extra source makes X (and the edges D→X, X→T) reachable, changing
the result. -/

/-- Counterexample to claim C3 as stated: node_D is absent from
`cexGraph.nodes`, yet adding it to the sources changes both the node
list and the edge list of `incident`'s result (the graph has an edge
whose dangling sourceId is node_D, and the DFS follows it). -/
theorem incident_absent_id_cex :
    (cexGraph.nodes.all fun nd => nd.id != "node_D") = true ∧
    (incident cexGraph ["node_S", "node_D"] ["node_T"]).nodes ≠
      (incident cexGraph ["node_S"] ["node_T"]).nodes ∧
    (incident cexGraph ["node_S", "node_D"] ["node_T"]).edges ≠
      (incident cexGraph ["node_S"] ["node_T"]).edges := by
  refine ⟨by decide, by decide, by decide⟩

theorem not_stepRel_of_absent (edges : List Edge) (nodes : List Node) (d : String)
    (hnod : ∀ e ∈ edges, ∃ nd ∈ nodes, nd.id = e.sourceId)
    (hd : ∀ nd ∈ nodes, nd.id ≠ d) :
    ∀ y, ¬ stepRel edges d y := by
  rintro y ⟨e, he, hsrc, _⟩
  obtain ⟨nd, hnd, hid⟩ := hnod e he
  exact hd nd hnd (hid.trans hsrc)

theorem rtg_eq_of_no_step {r : String → String → Prop} {d x : String}
    (hno : ∀ y, ¬ r d y) (h : Relation.ReflTransGen r d x) : x = d := by
  rcases Relation.ReflTransGen.cases_head h with rfl | ⟨c, hc, _⟩
  · rfl
  · exact absurd hc (hno c)

theorem mem_dfs_append_absent (g : Graph) (start : List String) (d : String)
    (hno : ∀ y, ¬ stepRel g.edges d y) (x : String) :
    x ∈ dfs g (start ++ [d]) ↔ x ∈ dfs g start ∨ x = d := by
  rw [mem_dfs_iff, mem_dfs_iff]
  constructor
  · rintro ⟨s, hs, hrtg⟩
    rcases List.mem_append.mp hs with hs | hs
    · exact Or.inl ⟨s, hs, hrtg⟩
    · rcases List.mem_singleton.mp hs with rfl
      exact Or.inr (rtg_eq_of_no_step hno hrtg)
  · rintro (⟨s, hs, hrtg⟩ | rfl)
    · exact ⟨s, List.mem_append_left _ hs, hrtg⟩
    · exact ⟨x, List.mem_append_right _ (List.mem_singleton.mpr rfl),
        Relation.ReflTransGen.refl⟩

/-- Congruence core: if the vertex-intersection lists of two `incident`
runs agree on every id other than `d`, the A-run's list covers the
B-run's, no node or edge endpoint of the graph is `d`, and the
source/target lists agree on every id other than `d`, then the two runs
produce the same nodes and edges. -/
theorem incident_eq_of_equiv (g : Graph) (ssA tsA ssB tsB : List String) (d : String)
    (hd : ∀ nd ∈ g.nodes, nd.id ≠ d)
    (hnod : ∀ e ∈ g.edges,
      (∃ nd ∈ g.nodes, nd.id = e.sourceId) ∧ (∃ nd ∈ g.nodes, nd.id = e.targetId))
    (hiff : ∀ x, x ≠ d → (x ∈ incidentI g ssA tsA ↔ x ∈ incidentI g ssB tsB))
    (hcover : ∀ x ∈ incidentI g ssB tsB, x ∈ incidentI g ssA tsA)
    (hsrcs : ∀ x, x ≠ d → ssA.contains x = ssB.contains x)
    (htgts : ∀ x, x ≠ d → tsA.contains x = tsB.contains x) :
    (incident g ssA tsA).nodes = (incident g ssB tsB).nodes ∧
    (incident g ssA tsA).edges = (incident g ssB tsB).edges := by
  have hsrcid : ∀ e ∈ g.edges, e.sourceId ≠ d := by
    intro e he
    obtain ⟨⟨nd, hnd, hid⟩, _⟩ := hnod e he
    exact hid ▸ hd nd hnd
  have htgtid : ∀ e ∈ g.edges, e.targetId ≠ d := by
    intro e he
    obtain ⟨_, nd, hnd, hid⟩ := hnod e he
    exact hid ▸ hd nd hnd
  have hcont : ∀ x, x ≠ d →
      (incidentI g ssA tsA).contains x = (incidentI g ssB tsB).contains x := by
    intro x hx
    exact Bool.eq_iff_iff.mpr (List.elem_iff.trans ((hiff x hx).trans List.elem_iff.symm))
  by_cases hBnil : incidentI g ssB tsB = []
  · by_cases hAnil : incidentI g ssA tsA = []
    · unfold incident
      rw [if_pos hAnil, if_pos hBnil]
      exact ⟨rfl, rfl⟩
    · -- every member of the A-side intersection is d, so the A-side's
      -- node and edge filters are empty like the B-side's empty graph
      have hAd : ∀ x ∈ incidentI g ssA tsA, x = d := by
        intro x hx
        by_contra hxd
        have := (hiff x hxd).mp hx
        rw [hBnil] at this
        exact absurd this (List.not_mem_nil x)
      unfold incident
      rw [if_neg hAnil, if_pos hBnil]
      constructor
      · show g.nodes.filter (fun node => (incidentI g ssA tsA).contains node.id) = []
        rw [List.filter_eq_nil_iff]
        intro nd hnd
        simp only [Bool.not_eq_true]
        rcases hcA : (incidentI g ssA tsA).contains nd.id with _ | _
        · rfl
        · exact absurd (hAd nd.id (List.elem_iff.mp hcA)) (hd nd hnd)
      · have hinner : g.edges.filter
            (fun e => (incidentI g ssA tsA).contains e.sourceId &&
              (incidentI g ssA tsA).contains e.targetId) = [] := by
          rw [List.filter_eq_nil_iff]
          intro e he
          simp only [Bool.and_eq_true, not_and]
          intro hsrc _
          exact absurd (hAd e.sourceId (List.elem_iff.mp hsrc)) (hsrcid e he)
        show (g.edges.filter
            (fun e => (incidentI g ssA tsA).contains e.sourceId &&
              (incidentI g ssA tsA).contains e.targetId)).filter
            (fun e => !(ssA.contains e.targetId) && !(tsA.contains e.sourceId)) = []
        rw [hinner]
        rfl
  · have hAnil : incidentI g ssA tsA ≠ [] := by
      obtain ⟨x, hx⟩ := List.exists_mem_of_ne_nil _ hBnil
      intro hA
      exact absurd (hA ▸ hcover x hx) (List.not_mem_nil x)
    unfold incident
    rw [if_neg hAnil, if_neg hBnil]
    have hnodes : g.nodes.filter (fun node => (incidentI g ssA tsA).contains node.id) =
        g.nodes.filter (fun node => (incidentI g ssB tsB).contains node.id) :=
      List.filter_congr fun nd hnd => hcont nd.id (hd nd hnd)
    have hedges : g.edges.filter
        (fun e => (incidentI g ssA tsA).contains e.sourceId &&
          (incidentI g ssA tsA).contains e.targetId) =
        g.edges.filter
        (fun e => (incidentI g ssB tsB).contains e.sourceId &&
          (incidentI g ssB tsB).contains e.targetId) :=
      List.filter_congr fun e he => by
        rw [hcont e.sourceId (hsrcid e he), hcont e.targetId (htgtid e he)]
    refine ⟨hnodes, ?_⟩
    show (g.edges.filter
        (fun e => (incidentI g ssA tsA).contains e.sourceId &&
          (incidentI g ssA tsA).contains e.targetId)).filter
        (fun e => !(ssA.contains e.targetId) && !(tsA.contains e.sourceId)) = _
    rw [hedges]
    apply List.filter_congr
    intro e he
    have he' : e ∈ g.edges := List.mem_of_mem_filter he
    rw [hsrcs e.targetId (htgtid e he'), htgts e.sourceId (hsrcid e he')]

theorem contains_append_singleton (l : List String) (x d : String) (hx : x ≠ d) :
    (l ++ [d]).contains x = l.contains x := by
  apply Bool.eq_iff_iff.mpr
  rw [List.elem_iff, List.elem_iff]
  simp [List.mem_append, hx]

/-- Claim C3, amended: in a graph with no dangling edge references
(every edge endpoint id names a node of the graph), appending an id that
is not among the graph's node ids to the sources — or to the targets —
leaves both the nodes and the edges of `incident`'s result unchanged.
(Without the no-dangling hypothesis the claim fails,
see the counterexample.) -/
theorem incident_ignores_absent_id (g : Graph) (ss ts : List String) (d : String)
    (hnod : ∀ e ∈ g.edges,
      (∃ nd ∈ g.nodes, nd.id = e.sourceId) ∧ (∃ nd ∈ g.nodes, nd.id = e.targetId))
    (hd : ∀ nd ∈ g.nodes, nd.id ≠ d) :
    ((incident g (ss ++ [d]) ts).nodes = (incident g ss ts).nodes ∧
     (incident g (ss ++ [d]) ts).edges = (incident g ss ts).edges) ∧
    ((incident g ss (ts ++ [d])).nodes = (incident g ss ts).nodes ∧
     (incident g ss (ts ++ [d])).edges = (incident g ss ts).edges) := by
  have hnostep : ∀ y, ¬ stepRel g.edges d y :=
    not_stepRel_of_absent g.edges g.nodes d (fun e he => (hnod e he).1) hd
  have hnostepRev : ∀ y, ¬ stepRel (reverseGraph g).edges d y := by
    rintro y ⟨e', he', hsrc, _⟩
    obtain ⟨e, he, rfl⟩ := List.mem_map.mp he'
    obtain ⟨_, nd, hnd, hid⟩ := hnod e he
    exact hd nd hnd (hid.trans hsrc)
  have hmemF := mem_dfs_append_absent g ss d hnostep
  have hmemB := mem_dfs_append_absent (reverseGraph g) ts d hnostepRev
  constructor
  · refine incident_eq_of_equiv g (ss ++ [d]) ts ss ts d hd hnod ?_ ?_ ?_ (fun _ _ => rfl)
    · intro x hx
      unfold incidentI
      rw [List.mem_filter, List.mem_filter, hmemF x]
      constructor
      · rintro ⟨hF | rfl, hB⟩
        · exact ⟨hF, hB⟩
        · exact absurd rfl hx
      · rintro ⟨hF, hB⟩
        exact ⟨Or.inl hF, hB⟩
    · intro x hx
      unfold incidentI at hx ⊢
      rw [List.mem_filter] at hx
      rw [List.mem_filter, hmemF x]
      exact ⟨Or.inl hx.1, hx.2⟩
    · intro x hx
      exact contains_append_singleton ss x d hx
  · refine incident_eq_of_equiv g ss (ts ++ [d]) ss ts d hd hnod ?_ ?_ (fun _ _ => rfl) ?_
    · intro x hx
      unfold incidentI
      rw [List.mem_filter, List.mem_filter]
      have hBc : ((dfs (reverseGraph g) (ts ++ [d])).contains x = true) ↔
          ((dfs (reverseGraph g) ts).contains x = true) := by
        rw [List.elem_iff, List.elem_iff, hmemB x]
        constructor
        · rintro (hB | rfl)
          · exact hB
          · exact absurd rfl hx
        · exact Or.inl
      rw [hBc]
    · intro x hx
      unfold incidentI at hx ⊢
      rw [List.mem_filter] at hx
      rw [List.mem_filter]
      refine ⟨hx.1, ?_⟩
      rw [List.elem_iff, hmemB x]
      exact Or.inl (List.elem_iff.mp hx.2)
    · intro x hx
      exact contains_append_singleton ts x d hx

/-- Witness for the amended C3 at the example graph (which has no
dangling edge references) with absent id node_Z. -/
theorem incident_ignores_absent_id_witness :
    ((incident exampleGraph (["node_A"] ++ ["node_Z"]) ["node_C"]).nodes =
      (incident exampleGraph ["node_A"] ["node_C"]).nodes ∧
     (incident exampleGraph (["node_A"] ++ ["node_Z"]) ["node_C"]).edges =
      (incident exampleGraph ["node_A"] ["node_C"]).edges) ∧
    ((incident exampleGraph ["node_A"] (["node_C"] ++ ["node_Z"])).nodes =
      (incident exampleGraph ["node_A"] ["node_C"]).nodes ∧
     (incident exampleGraph ["node_A"] (["node_C"] ++ ["node_Z"])).edges =
      (incident exampleGraph ["node_A"] ["node_C"]).edges) :=
  incident_ignores_absent_id exampleGraph ["node_A"] ["node_C"] "node_Z"
    (by decide) (by decide)

/-! ## Theorems for claim C7 -/

/-- Claim C7: `cosineSimilarity(a, b)` fails (with a length-mismatch
error) exactly when the two vectors have different lengths; with equal
lengths it returns 0 whenever either magnitude (sqrt of the sum of
squares) is 0 — in particular for two length-0 vectors — and otherwise
returns the dot product divided by the product of the magnitudes. -/
theorem cosineSimilarity_spec (a b : List ℚ) :
    ((∃ msg, cosineSimilarity a b = .error msg) ↔ a.length ≠ b.length) ∧
    (a.length = b.length → (magnitudeR a = 0 ∨ magnitudeR b = 0) →
      cosineSimilarity a b = .ok 0) ∧
    (a.length = b.length → magnitudeR a ≠ 0 → magnitudeR b ≠ 0 →
      cosineSimilarity a b = .ok ((dotQ a b : ℝ) / (magnitudeR a * magnitudeR b))) := by
  refine ⟨⟨?_, ?_⟩, ?_, ?_⟩
  · rintro ⟨msg, hmsg⟩
    by_contra hlen
    unfold cosineSimilarity at hmsg
    rw [if_neg (not_not_intro hlen)] at hmsg
    split at hmsg
    · exact Except.noConfusion hmsg
    · split at hmsg <;> exact Except.noConfusion hmsg
  · intro hlen
    unfold cosineSimilarity
    rw [if_pos hlen]
    exact ⟨_, rfl⟩
  · intro hlen hmag
    unfold cosineSimilarity
    rw [if_neg (not_not_intro hlen)]
    by_cases h0 : a.length = 0
    · rw [if_pos h0]
    · rw [if_neg h0, if_pos hmag]
  · intro hlen ha hb
    unfold cosineSimilarity
    rw [if_neg (not_not_intro hlen)]
    have h0 : ¬ a.length = 0 := by
      intro h0
      apply ha
      rw [List.length_eq_zero.mp h0]
      simp [magnitudeR, sumSqQ]
    rw [if_neg h0, if_neg (by rintro (h | h); exacts [ha h, hb h])]

/-- Witness for C7 at the vectors [1] and [1]. -/
theorem cosineSimilarity_spec_witness :
    magnitudeR [1] ≠ 0 ∧
    cosineSimilarity [1] [1] =
      .ok ((dotQ [1] [1] : ℝ) / (magnitudeR [1] * magnitudeR [1])) := by
  have hmag : magnitudeR ([1] : List ℚ) ≠ 0 := by
    unfold magnitudeR
    have h1 : sumSqQ ([1] : List ℚ) = 1 := by
      unfold sumSqQ
      norm_num
    rw [h1]
    norm_num [Real.sqrt_one]
  exact ⟨hmag, (cosineSimilarity_spec [1] [1]).2.2 rfl hmag hmag⟩

/-! ## Theorems for claim C10 -/

theorem except_bind_ok {α β : Type} {x : Except String α} {f : α → Except String β}
    {b : β} (h : x.bind f = .ok b) : ∃ a, x = .ok a ∧ f a = .ok b := by
  cases x with
  | error e => simp [Except.bind] at h
  | ok a => exact ⟨a, rfl, by simpa [Except.bind] using h⟩

/-- What one `mergeEdgeStep` can add: only the processed edge itself,
and only when both its endpoints resolve in b.nodes. -/
theorem mergeEdgeStep_ok_sub (a b : Graph) (acc acc' : List Edge) (f : Edge)
    (h : mergeEdgeStep a b acc f = .ok acc') :
    ∀ x ∈ acc', x ∈ acc ∨ (x = f ∧
      (∃ sN, b.nodes.find? (fun n => n.id = f.sourceId) = some sN) ∧
      (∃ tN, b.nodes.find? (fun n => n.id = f.targetId) = some tN)) := by
  unfold mergeEdgeStep at h
  cases hs : b.nodes.find? (fun n => n.id = f.sourceId) with
  | none =>
    rw [hs] at h
    have h2 : acc = acc' := by
      cases ht : b.nodes.find? (fun n => n.id = f.targetId) <;> rw [ht] at h <;>
        simpa [pure, Except.pure] using h
    subst h2
    exact fun x hx => Or.inl hx
  | some sN =>
    rw [hs] at h
    cases ht : b.nodes.find? (fun n => n.id = f.targetId) with
    | none =>
      rw [ht] at h
      have h2 : acc = acc' := by simpa [pure, Except.pure] using h
      subst h2
      exact fun x hx => Or.inl hx
    | some tN =>
      rw [ht] at h
      have h2 : (do
          let contained ← containsEdge a sN tN f DEFAULT_THRESHOLD
          if contained = true then pure acc else pure (acc ++ [f]) :
          Except String (List Edge)) = .ok acc' := h
      obtain ⟨c, _, h3⟩ := except_bind_ok h2
      cases c with
      | true =>
        have h4 : acc = acc' := by simpa [pure, Except.pure] using h3
        subst h4
        exact fun x hx => Or.inl hx
      | false =>
        have h4 : acc ++ [f] = acc' := by simpa [pure, Except.pure] using h3
        subst h4
        intro x hx
        rcases List.mem_append.mp hx with hx | hx
        · exact Or.inl hx
        · exact Or.inr ⟨List.mem_singleton.mp hx, ⟨sN, rfl⟩, ⟨tN, rfl⟩⟩

/-- What one `intersectEdgeStep` can add: only the processed edge, and
only when both its endpoints resolve in b.nodes. -/
theorem intersectEdgeStep_ok_sub (a b : Graph) (acc acc' : List Edge) (f : Edge)
    (h : intersectEdgeStep a b acc f = .ok acc') :
    ∀ x ∈ acc', x ∈ acc ∨ (x = f ∧
      (∃ sN, b.nodes.find? (fun n => n.id = f.sourceId) = some sN) ∧
      (∃ tN, b.nodes.find? (fun n => n.id = f.targetId) = some tN)) := by
  unfold intersectEdgeStep at h
  cases hs : b.nodes.find? (fun n => n.id = f.sourceId) with
  | none =>
    rw [hs] at h
    have h2 : acc = acc' := by
      cases ht : b.nodes.find? (fun n => n.id = f.targetId) <;> rw [ht] at h <;>
        simpa [pure, Except.pure] using h
    subst h2
    exact fun x hx => Or.inl hx
  | some sN =>
    rw [hs] at h
    cases ht : b.nodes.find? (fun n => n.id = f.targetId) with
    | none =>
      rw [ht] at h
      have h2 : acc = acc' := by simpa [pure, Except.pure] using h
      subst h2
      exact fun x hx => Or.inl hx
    | some tN =>
      rw [ht] at h
      have h2 : (do
          let similarSource ← findNode a sN DEFAULT_THRESHOLD
          let similarTarget ← findNode a tN DEFAULT_THRESHOLD
          match similarSource, similarTarget with
          | some _, some _ => do
            let contained ← containsEdge a sN tN f DEFAULT_THRESHOLD
            if contained = true then pure (acc ++ [f]) else pure acc
          | _, _ => pure acc :
          Except String (List Edge)) = .ok acc' := h
      obtain ⟨os, _, h3⟩ := except_bind_ok h2
      obtain ⟨ot, _, h4⟩ := except_bind_ok h3
      cases os with
      | none =>
        have h5 : acc = acc' := by
          cases ot <;> simpa [pure, Except.pure] using h4
        subst h5
        exact fun x hx => Or.inl hx
      | some ws =>
        cases ot with
        | none =>
          have h5 : acc = acc' := by simpa [pure, Except.pure] using h4
          subst h5
          exact fun x hx => Or.inl hx
        | some wt =>
          have h5 : (do
              let contained ← containsEdge a sN tN f DEFAULT_THRESHOLD
              if contained = true then pure (acc ++ [f]) else pure acc :
              Except String (List Edge)) = .ok acc' := h4
          obtain ⟨c, _, h6⟩ := except_bind_ok h5
          cases c with
          | true =>
            have h7 : acc ++ [f] = acc' := by simpa [pure, Except.pure] using h6
            subst h7
            intro x hx
            rcases List.mem_append.mp hx with hx | hx
            · exact Or.inl hx
            · exact Or.inr ⟨List.mem_singleton.mp hx, ⟨sN, rfl⟩, ⟨tN, rfl⟩⟩
          | false =>
            have h7 : acc = acc' := by simpa [pure, Except.pure] using h6
            subst h7
            exact fun x hx => Or.inl hx

/-- A fold whose steps only ever add elements satisfying `P` never
surfaces an element that fails `P`. -/
theorem foldlM_not_mem_of_step {P : Edge → Prop}
    (step : List Edge → Edge → Except String (List Edge))
    (hstep : ∀ acc acc' f, step acc f = .ok acc' →
      ∀ x ∈ acc', x ∈ acc ∨ (x = f ∧ P f))
    (e : Edge) (hPe : ¬ P e) :
    ∀ (edges acc : List Edge), e ∉ acc →
      ∀ res, List.foldlM step acc edges = .ok res → e ∉ res := by
  intro edges
  induction edges with
  | nil =>
    intro acc hacc res hres
    obtain rfl : acc = res := by simpa [List.foldlM, pure, Except.pure] using hres
    exact hacc
  | cons f rest ih =>
    intro acc hacc res hres
    rw [List.foldlM_cons] at hres
    obtain ⟨acc', hstep', hres'⟩ := except_bind_ok hres
    refine ih acc' ?_ res hres'
    intro hmem
    rcases hstep acc acc' f hstep' e hmem with h | ⟨rfl, hP⟩
    · exact hacc h
    · exact hPe hP

/-- Counterexample to claim C10 as stated: the dangling edge of b is
also an edge of a, and merge copies all of a's edges unconditionally, so
the dangling edge does appear in merge(a, b)'s result. -/
theorem merge_dangling_cex :
    dangEdge ∈ dangGraph.edges ∧
    dangGraph.nodes.find? (fun n => n.id = dangEdge.sourceId) = none ∧
    ∃ g', merge dangGraph dangGraph = .ok g' ∧ dangEdge ∈ g'.edges :=
  ⟨List.mem_singleton.mpr rfl, rfl,
    ⟨{ id := freshGraphId, nodes := [], edges := [dangEdge] }, rfl,
      List.mem_singleton.mpr rfl⟩⟩

/-- Claim C10, amended: an edge of b whose sourceId or targetId does not
resolve in b.nodes is never added by merge — it appears in
merge(a, b)'s result only if it is already an edge of a — and it never
appears in intersect(a, b)'s result. -/
theorem except_map_ok {α β : Type} {x : Except String α} {f : α → β} {b : β}
    (h : (f <$> x) = .ok b) : ∃ a, x = .ok a ∧ f a = b := by
  cases x with
  | error e =>
    have he : (f <$> (Except.error e : Except String α)) = Except.error e := rfl
    rw [he] at h
    exact Except.noConfusion h
  | ok a =>
    rw [Except.map_ok] at h
    exact ⟨a, rfl, Except.ok.inj h⟩

/-- Claim C10, amended: an edge of b whose sourceId or targetId does not
resolve in b.nodes is never added by merge — it appears in
merge(a, b)'s result only if it is already an edge of a — and it never
appears in intersect(a, b)'s result. -/
theorem dangling_edges_excluded (a b : Graph) (e : Edge)
    (he : e ∈ b.edges)
    (hdangle : b.nodes.find? (fun n => n.id = e.sourceId) = none ∨
               b.nodes.find? (fun n => n.id = e.targetId) = none) :
    (∀ g', merge a b = .ok g' → e ∉ a.edges → e ∉ g'.edges) ∧
    (∀ g', intersect a b = .ok g' → e ∉ g'.edges) := by
  constructor
  · intro g' hok hea
    unfold merge at hok
    have hok1 : (List.foldlM (mergeNodeStep a) a.nodes b.nodes).bind
        (fun nodes => Graph.mk freshGraphId nodes <$>
          List.foldlM (mergeEdgeStep a b) a.edges b.edges) = .ok g' := hok
    obtain ⟨nodes, hn, hok2⟩ := except_bind_ok hok1
    obtain ⟨edges, hedg, hg'⟩ := except_map_ok hok2
    subst hg'
    refine foldlM_not_mem_of_step (mergeEdgeStep a b)
      (fun acc acc' f h => mergeEdgeStep_ok_sub a b acc acc' f h) e ?_
      b.edges a.edges hea edges hedg
    rintro ⟨⟨sN, hs⟩, ⟨tN, ht⟩⟩
    rcases hdangle with h | h
    · rw [h] at hs; exact Option.noConfusion hs
    · rw [h] at ht; exact Option.noConfusion ht
  · intro g' hok
    unfold intersect at hok
    have hok1 : (List.foldlM (intersectNodeStep a) [] b.nodes).bind
        (fun nodes => Graph.mk freshGraphId nodes <$>
          List.foldlM (intersectEdgeStep a b) [] b.edges) = .ok g' := hok
    obtain ⟨nodes, hn, hok2⟩ := except_bind_ok hok1
    obtain ⟨edges, hedg, hg'⟩ := except_map_ok hok2
    subst hg'
    refine foldlM_not_mem_of_step (intersectEdgeStep a b)
      (fun acc acc' f h => intersectEdgeStep_ok_sub a b acc acc' f h) e ?_
      b.edges [] (List.not_mem_nil e) edges hedg
    rintro ⟨⟨sN, hs⟩, ⟨tN, ht⟩⟩
    rcases hdangle with h | h
    · rw [h] at hs; exact Option.noConfusion hs
    · rw [h] at ht; exact Option.noConfusion ht

/-- Witness for the amended C10: merging / intersecting the empty graph
with the dangling-edge graph never surfaces the dangling edge. -/
theorem dangling_edges_excluded_witness :
    ∃ gm gi, merge emptyG dangGraph = .ok gm ∧ intersect emptyG dangGraph = .ok gi ∧
      dangEdge ∉ gm.edges ∧ dangEdge ∉ gi.edges :=
  ⟨{ id := freshGraphId, nodes := [], edges := [] },
   { id := freshGraphId, nodes := [], edges := [] }, rfl, rfl,
    (dangling_edges_excluded emptyG dangGraph dangEdge (List.mem_singleton.mpr rfl)
      (Or.inl rfl)).1 _ rfl (List.not_mem_nil dangEdge),
    (dangling_edges_excluded emptyG dangGraph dangEdge (List.mem_singleton.mpr rfl)
      (Or.inl rfl)).2 _ rfl⟩

/-! ## Theorems for claim C4 -/

theorem sumSqQ_nonneg (v : List ℚ) : 0 ≤ sumSqQ v := by
  unfold sumSqQ
  apply List.sum_nonneg
  intro x hx
  obtain ⟨y, _, rfl⟩ := List.mem_map.mp hx
  exact mul_self_nonneg y

theorem dotQ_self (v : List ℚ) : dotQ v v = sumSqQ v := by
  unfold dotQ sumSqQ
  congr 1
  induction v with
  | nil => rfl
  | cons x rest ih => simp only [List.zip_cons_cons, List.map_cons, ih]

theorem magnitudeR_ne_zero (v : List ℚ) (hv : sumSqQ v ≠ 0) : magnitudeR v ≠ 0 := by
  unfold magnitudeR
  have hpos : (0 : ℝ) < (sumSqQ v : ℝ) := by
    have := lt_of_le_of_ne (sumSqQ_nonneg v) (Ne.symm hv)
    exact_mod_cast this
  exact ne_of_gt (Real.sqrt_pos.mpr hpos)

/-- A vector with non-zero sum of squares has cosine similarity 1 with
itself. -/
theorem cosineSimilarity_self (v : List ℚ) (hv : sumSqQ v ≠ 0) :
    cosineSimilarity v v = .ok 1 := by
  have hlen0 : v.length ≠ 0 := by
    intro h
    apply hv
    rw [List.length_eq_zero.mp h]
    simp [sumSqQ]
  have hpos : (0 : ℝ) < (sumSqQ v : ℝ) := by
    have := lt_of_le_of_ne (sumSqQ_nonneg v) (Ne.symm hv)
    exact_mod_cast this
  have hmag : magnitudeR v ≠ 0 := magnitudeR_ne_zero v hv
  unfold cosineSimilarity
  rw [if_neg (not_not_intro rfl), if_neg hlen0,
    if_neg (by rintro (h | h) <;> exact hmag h)]
  congr 1
  rw [dotQ_self]
  unfold magnitudeR
  rw [Real.mul_self_sqrt (le_of_lt hpos)]
  exact div_self (ne_of_gt hpos)

/-- Cosine similarity of equal-length vectors never fails. -/
theorem cosineSimilarity_isOk (a b : List ℚ) (h : a.length = b.length) :
    ∃ s, cosineSimilarity a b = .ok s := by
  unfold cosineSimilarity
  rw [if_neg (not_not_intro h)]
  by_cases h0 : a.length = 0
  · rw [if_pos h0]; exact ⟨_, rfl⟩
  · rw [if_neg h0]
    by_cases hm : magnitudeR a = 0 ∨ magnitudeR b = 0
    · rw [if_pos hm]; exact ⟨_, rfl⟩
    · rw [if_neg hm]; exact ⟨_, rfl⟩

/-- Characterisation of `findNode`'s candidate-collection loop: it runs
to completion when every embedding is present and comparable, keeps the
accumulator as a prefix, and collects exactly the above-threshold
pairings. -/
theorem findNode_fold_spec (refId : String) (ne : List ℚ) (threshold : ℝ) :
    ∀ (nodes : List Node) (acc : List NodeCandidate),
      (∀ u ∈ nodes, ∃ eu s, u.embedding = some eu ∧ cosineSimilarity ne eu = .ok s) →
      ∃ res, List.foldlM (findNodeStep refId ne threshold) acc nodes = .ok res ∧
        (∀ c ∈ res, c ∈ acc ∨ ∃ u ∈ nodes, ∃ eu s, u.embedding = some eu ∧
          cosineSimilarity ne eu = .ok s ∧ threshold ≤ s ∧
          c = { referenceId := refId, candidateId := u.id, similarity := s }) ∧
        (∀ u ∈ nodes, ∀ eu s, u.embedding = some eu → cosineSimilarity ne eu = .ok s →
          threshold ≤ s →
          ({ referenceId := refId, candidateId := u.id,
             similarity := s } : NodeCandidate) ∈ res) ∧
        (∀ c ∈ acc, c ∈ res) := by
  intro nodes
  induction nodes with
  | nil =>
    intro acc _
    refine ⟨acc, rfl, ?_, ?_, fun c hc => hc⟩
    · exact fun c hc => Or.inl hc
    · intro u hu
      exact absurd hu (List.not_mem_nil u)
  | cons u rest ih =>
    intro acc hok
    obtain ⟨eu, s, hemb, hcos⟩ := hok u (List.mem_cons_self _ _)
    have hstep : findNodeStep refId ne threshold acc u =
        (do
          let similarity ← cosineSimilarity ne eu
          if threshold ≤ similarity then
            pure (acc ++
              [({ referenceId := refId, candidateId := u.id,
                  similarity := similarity } : NodeCandidate)])
          else
            pure acc) := by
      unfold findNodeStep
      rw [hemb]
    rw [hcos] at hstep
    by_cases hts : threshold ≤ s
    · have hstep2 : findNodeStep refId ne threshold acc u =
          .ok (acc ++
            [({ referenceId := refId, candidateId := u.id,
                similarity := s } : NodeCandidate)]) := by
        rw [hstep]
        show (if threshold ≤ s then _ else _) = _
        rw [if_pos hts]
        rfl
      obtain ⟨res, hfold, hsound, hcomplete, hpref⟩ :=
        ih (acc ++
          [({ referenceId := refId, candidateId := u.id,
              similarity := s } : NodeCandidate)])
          (fun w hw => hok w (List.mem_cons_of_mem _ hw))
      refine ⟨res, ?_, ?_, ?_, ?_⟩
      · rw [List.foldlM_cons, hstep2]
        exact hfold
      · intro c hc
        rcases hsound c hc with hc' | ⟨w, hw, ew, sw, h1, h2, h3, h4⟩
        · rcases List.mem_append.mp hc' with hc'' | hc''
          · exact Or.inl hc''
          · exact Or.inr ⟨u, List.mem_cons_self _ _, eu, s, hemb, hcos, hts,
              List.mem_singleton.mp hc''⟩
        · exact Or.inr ⟨w, List.mem_cons_of_mem _ hw, ew, sw, h1, h2, h3, h4⟩
      · intro w hw ew sw h1 h2 h3
        rcases List.mem_cons.mp hw with rfl | hw'
        · -- same node value: embedding and similarity coincide
          have hew : ew = eu := by
            rw [hemb] at h1
            exact (Option.some.inj h1).symm
          subst hew
          have hsw : sw = s := by
            rw [hcos] at h2
            exact (Except.ok.inj h2).symm
          subst hsw
          exact hpref _ (List.mem_append_right _ (List.mem_singleton.mpr rfl))
        · exact hcomplete w hw' ew sw h1 h2 h3
      · intro c hc
        exact hpref c (List.mem_append_left _ hc)
    · have hstep2 : findNodeStep refId ne threshold acc u = .ok acc := by
        rw [hstep]
        show (if threshold ≤ s then _ else _) = _
        rw [if_neg hts]
        rfl
      obtain ⟨res, hfold, hsound, hcomplete, hpref⟩ :=
        ih acc (fun w hw => hok w (List.mem_cons_of_mem _ hw))
      refine ⟨res, ?_, ?_, ?_, hpref⟩
      · rw [List.foldlM_cons, hstep2]
        exact hfold
      · intro c hc
        rcases hsound c hc with hc' | ⟨w, hw, ew, sw, h1, h2, h3, h4⟩
        · exact Or.inl hc'
        · exact Or.inr ⟨w, List.mem_cons_of_mem _ hw, ew, sw, h1, h2, h3, h4⟩
      · intro w hw ew sw h1 h2 h3
        rcases List.mem_cons.mp hw with rfl | hw'
        · have hew : ew = eu := by
            rw [hemb] at h1
            exact (Option.some.inj h1).symm
          subst hew
          have hsw : sw = s := by
            rw [hcos] at h2
            exact (Except.ok.inj h2).symm
          subst hsw
          exact absurd h3 hts
        · exact hcomplete w hw' ew sw h1 h2 h3

theorem findNode_eval (g : Graph) (v : Node) (th : ℝ) (ev : List ℚ)
    (res : List NodeCandidate) (hev : v.embedding = some ev)
    (hfold : List.foldlM (findNodeStep v.id ev th) [] g.nodes = .ok res)
    (h0 : res.length ≠ 0) (best : NodeCandidate)
    (hbest : (sortCandidatesDesc res).head? = some best) :
    findNode g v th = .ok (g.nodes.find? fun n => n.id = best.candidateId) := by
  have h1 : findNode g v th = (do
      let candidates ← List.foldlM (findNodeStep v.id ev th) [] g.nodes
      if candidates.length = 0 then
        pure none
      else
        match (sortCandidatesDesc candidates).head? with
        | none => pure none
        | some best => pure (g.nodes.find? fun n => n.id = best.candidateId)) := by
    unfold findNode
    rw [hev]
  rw [h1, hfold]
  show (if res.length = 0 then (pure none : Except String (Option Node))
    else match (sortCandidatesDesc res).head? with
      | none => pure none
      | some best => pure (g.nodes.find? fun n => n.id = best.candidateId)) = _
  rw [if_neg h0, hbest]
  rfl

theorem sortCandidatesDesc_ne_nil (res : List NodeCandidate) (h0 : res.length ≠ 0) :
    ∃ best, (sortCandidatesDesc res).head? = some best ∧ best ∈ res := by
  have hperm : (sortCandidatesDesc res).Perm res := List.mergeSort_perm res _
  cases hh : sortCandidatesDesc res with
  | nil =>
    exfalso
    apply h0
    have := hperm.length_eq
    rw [hh] at this
    exact this.symm
  | cons b t =>
    refine ⟨b, rfl, ?_⟩
    have : b ∈ sortCandidatesDesc res := by rw [hh]; exact List.mem_cons_self _ _
    exact hperm.mem_iff.mp this

/-- Every node similarity-contains itself when embeddings are present,
non-zero, and pairwise comparable. -/
theorem containsNode_self (g : Graph) (v : Node) (hv : v ∈ g.nodes)
    (hnode : ∀ u ∈ g.nodes, ∃ eu, u.embedding = some eu ∧ sumSqQ eu ≠ 0)
    (hnlen : ∀ u ∈ g.nodes, ∀ w ∈ g.nodes, ∀ eu ew,
      u.embedding = some eu → w.embedding = some ew → eu.length = ew.length) :
    containsNode g v DEFAULT_THRESHOLD = .ok true := by
  obtain ⟨ev, hev, hsq⟩ := hnode v hv
  have hok : ∀ u ∈ g.nodes, ∃ eu s, u.embedding = some eu ∧
      cosineSimilarity ev eu = .ok s := by
    intro u hu
    obtain ⟨eu, heu, _⟩ := hnode u hu
    obtain ⟨s, hs⟩ := cosineSimilarity_isOk ev eu (hnlen v hv u hu ev eu hev heu)
    exact ⟨eu, s, heu, hs⟩
  obtain ⟨res, hfold, hsound, hcomplete, _⟩ :=
    findNode_fold_spec v.id ev DEFAULT_THRESHOLD g.nodes [] hok
  have hself :
      ({ referenceId := v.id, candidateId := v.id,
         similarity := 1 } : NodeCandidate) ∈ res :=
    hcomplete v hv ev 1 hev (cosineSimilarity_self ev hsq)
      (by norm_num [DEFAULT_THRESHOLD])
  have h0 : res.length ≠ 0 := by
    intro h
    rw [List.length_eq_zero.mp h] at hself
    exact absurd hself (List.not_mem_nil _)
  obtain ⟨best, hbest, hbestmem⟩ := sortCandidatesDesc_ne_nil res h0
  have hcand : ∃ u ∈ g.nodes, best.candidateId = u.id := by
    rcases hsound best hbestmem with h | ⟨u, hu, _, _, _, _, _, hbesteq⟩
    · exact absurd h (List.not_mem_nil best)
    · exact ⟨u, hu, by rw [hbesteq]⟩
  obtain ⟨u, hu, hcid⟩ := hcand
  obtain ⟨w, hw⟩ : ∃ w, (g.nodes.find? fun n => n.id = best.candidateId) = some w := by
    apply Option.isSome_iff_exists.mp
    rw [List.find?_isSome]
    exact ⟨u, hu, by simp [hcid]⟩
  unfold containsNode
  rw [findNode_eval g v DEFAULT_THRESHOLD ev res hev hfold h0 best hbest, hw]
  rfl

/-- When distinct nodes are dissimilar (below threshold), a node's
best match is a node carrying its own id. -/
theorem findNode_id_self (g : Graph) (v : Node) (hv : v ∈ g.nodes)
    (hnode : ∀ u ∈ g.nodes, ∃ eu, u.embedding = some eu ∧ sumSqQ eu ≠ 0)
    (hnlen : ∀ u ∈ g.nodes, ∀ w ∈ g.nodes, ∀ eu ew,
      u.embedding = some eu → w.embedding = some ew → eu.length = ew.length)
    (hdistinct : ∀ u ∈ g.nodes, ∀ w ∈ g.nodes, u ≠ w → ∀ eu ew s,
      u.embedding = some eu → w.embedding = some ew →
      cosineSimilarity eu ew = .ok s → s < DEFAULT_THRESHOLD) :
    ∃ w, findNode g v DEFAULT_THRESHOLD = .ok (some w) ∧ w ∈ g.nodes ∧ w.id = v.id := by
  obtain ⟨ev, hev, hsq⟩ := hnode v hv
  have hok : ∀ u ∈ g.nodes, ∃ eu s, u.embedding = some eu ∧
      cosineSimilarity ev eu = .ok s := by
    intro u hu
    obtain ⟨eu, heu, _⟩ := hnode u hu
    obtain ⟨s, hs⟩ := cosineSimilarity_isOk ev eu (hnlen v hv u hu ev eu hev heu)
    exact ⟨eu, s, heu, hs⟩
  obtain ⟨res, hfold, hsound, hcomplete, _⟩ :=
    findNode_fold_spec v.id ev DEFAULT_THRESHOLD g.nodes [] hok
  have hself :
      ({ referenceId := v.id, candidateId := v.id,
         similarity := 1 } : NodeCandidate) ∈ res :=
    hcomplete v hv ev 1 hev (cosineSimilarity_self ev hsq)
      (by norm_num [DEFAULT_THRESHOLD])
  have h0 : res.length ≠ 0 := by
    intro h
    rw [List.length_eq_zero.mp h] at hself
    exact absurd hself (List.not_mem_nil _)
  obtain ⟨best, hbest, hbestmem⟩ := sortCandidatesDesc_ne_nil res h0
  have hallid : ∀ c ∈ res, c.candidateId = v.id := by
    intro c hc
    rcases hsound c hc with h | ⟨u, hu, eu', s', hemb', hcos', hts', hceq⟩
    · exact absurd h (List.not_mem_nil c)
    · by_cases huv : u = v
      · rw [hceq, huv]
      · exfalso
        have hlt := hdistinct v hv u hu (fun h => huv h.symm) ev eu' s' hev hemb' hcos'
        exact absurd hts' (not_le.mpr hlt)
  obtain ⟨w, hw⟩ : ∃ w, (g.nodes.find? fun n => n.id = best.candidateId) = some w := by
    apply Option.isSome_iff_exists.mp
    rw [List.find?_isSome]
    exact ⟨v, hv, by simp [hallid best hbestmem]⟩
  refine ⟨w, ?_, List.mem_of_find?_eq_some hw, ?_⟩
  · rw [findNode_eval g v DEFAULT_THRESHOLD ev res hev hfold h0 best hbest, hw]
  · have := List.find?_some hw
    have hwid : w.id = best.candidateId := by simpa using this
    rw [hwid, hallid best hbestmem]

/-- Characterisation of `findEdge`'s candidate-collection loop,
mirroring `findNode_fold_spec`. -/
theorem findEdge_fold_spec (refId : String) (ee : List ℚ) (threshold : ℝ) :
    ∀ (ces : List Edge) (acc : List EdgeCandidate),
      (∀ f ∈ ces, ∃ ef s, f.embedding = some ef ∧ cosineSimilarity ee ef = .ok s) →
      ∃ res, List.foldlM (findEdgeStep refId ee threshold) acc ces = .ok res ∧
        (∀ c ∈ res, c ∈ acc ∨ ∃ f ∈ ces, ∃ ef s, f.embedding = some ef ∧
          cosineSimilarity ee ef = .ok s ∧ threshold ≤ s ∧
          c = { referenceId := refId, candidateId := f.id, similarity := s }) ∧
        (∀ f ∈ ces, ∀ ef s, f.embedding = some ef → cosineSimilarity ee ef = .ok s →
          threshold ≤ s →
          ({ referenceId := refId, candidateId := f.id,
             similarity := s } : EdgeCandidate) ∈ res) ∧
        (∀ c ∈ acc, c ∈ res) := by
  intro ces
  induction ces with
  | nil =>
    intro acc _
    refine ⟨acc, rfl, fun c hc => Or.inl hc, ?_, fun c hc => hc⟩
    intro f hf
    exact absurd hf (List.not_mem_nil f)
  | cons f rest ih =>
    intro acc hok
    obtain ⟨ef, s, hemb, hcos⟩ := hok f (List.mem_cons_self _ _)
    have hstep : findEdgeStep refId ee threshold acc f =
        (do
          let similarity ← cosineSimilarity ee ef
          if threshold ≤ similarity then
            pure (acc ++
              [({ referenceId := refId, candidateId := f.id,
                  similarity := similarity } : EdgeCandidate)])
          else
            pure acc) := by
      unfold findEdgeStep
      rw [hemb]
    rw [hcos] at hstep
    by_cases hts : threshold ≤ s
    · have hstep2 : findEdgeStep refId ee threshold acc f =
          .ok (acc ++
            [({ referenceId := refId, candidateId := f.id,
                similarity := s } : EdgeCandidate)]) := by
        rw [hstep]
        show (if threshold ≤ s then _ else _) = _
        rw [if_pos hts]
        rfl
      obtain ⟨res, hfold, hsound, hcomplete, hpref⟩ :=
        ih (acc ++
          [({ referenceId := refId, candidateId := f.id,
              similarity := s } : EdgeCandidate)])
          (fun w hw => hok w (List.mem_cons_of_mem _ hw))
      refine ⟨res, ?_, ?_, ?_, ?_⟩
      · rw [List.foldlM_cons, hstep2]
        exact hfold
      · intro c hc
        rcases hsound c hc with hc' | ⟨w, hw, ew, sw, h1, h2, h3, h4⟩
        · rcases List.mem_append.mp hc' with hc'' | hc''
          · exact Or.inl hc''
          · exact Or.inr ⟨f, List.mem_cons_self _ _, ef, s, hemb, hcos, hts,
              List.mem_singleton.mp hc''⟩
        · exact Or.inr ⟨w, List.mem_cons_of_mem _ hw, ew, sw, h1, h2, h3, h4⟩
      · intro w hw ew sw h1 h2 h3
        rcases List.mem_cons.mp hw with rfl | hw'
        · have hew : ew = ef := by
            rw [hemb] at h1
            exact (Option.some.inj h1).symm
          subst hew
          have hsw : sw = s := by
            rw [hcos] at h2
            exact (Except.ok.inj h2).symm
          subst hsw
          exact hpref _ (List.mem_append_right _ (List.mem_singleton.mpr rfl))
        · exact hcomplete w hw' ew sw h1 h2 h3
      · intro c hc
        exact hpref c (List.mem_append_left _ hc)
    · have hstep2 : findEdgeStep refId ee threshold acc f = .ok acc := by
        rw [hstep]
        show (if threshold ≤ s then _ else _) = _
        rw [if_neg hts]
        rfl
      obtain ⟨res, hfold, hsound, hcomplete, hpref⟩ :=
        ih acc (fun w hw => hok w (List.mem_cons_of_mem _ hw))
      refine ⟨res, ?_, ?_, ?_, hpref⟩
      · rw [List.foldlM_cons, hstep2]
        exact hfold
      · intro c hc
        rcases hsound c hc with hc' | ⟨w, hw, ew, sw, h1, h2, h3, h4⟩
        · exact Or.inl hc'
        · exact Or.inr ⟨w, List.mem_cons_of_mem _ hw, ew, sw, h1, h2, h3, h4⟩
      · intro w hw ew sw h1 h2 h3
        rcases List.mem_cons.mp hw with rfl | hw'
        · have hew : ew = ef := by
            rw [hemb] at h1
            exact (Option.some.inj h1).symm
          subst hew
          have hsw : sw = s := by
            rw [hcos] at h2
            exact (Except.ok.inj h2).symm
          subst hsw
          exact absurd h3 hts
        · exact hcomplete w hw' ew sw h1 h2 h3

theorem sortEdgeCandidatesDesc_ne_nil (res : List EdgeCandidate) (h0 : res.length ≠ 0) :
    ∃ best, (sortEdgeCandidatesDesc res).head? = some best ∧ best ∈ res := by
  have hperm : (sortEdgeCandidatesDesc res).Perm res := List.mergeSort_perm res _
  cases hh : sortEdgeCandidatesDesc res with
  | nil =>
    exfalso
    apply h0
    have := hperm.length_eq
    rw [hh] at this
    exact this.symm
  | cons b t =>
    refine ⟨b, rfl, ?_⟩
    have : b ∈ sortEdgeCandidatesDesc res := by rw [hh]; exact List.mem_cons_self _ _
    exact hperm.mem_iff.mp this

theorem findEdge_eval (g : Graph) (sN tN : Node) (e : Edge) (th : ℝ) (ee : List ℚ)
    (ws wt : Node) (res : List EdgeCandidate) (best : EdgeCandidate)
    (hee : e.embedding = some ee)
    (hfs : findNode g sN th = .ok (some ws))
    (hft : findNode g tN th = .ok (some wt))
    (hce0 : (g.edges.filter fun f => f.sourceId = ws.id && f.targetId = wt.id).length ≠ 0)
    (hfold : List.foldlM (findEdgeStep e.id ee th) []
      (g.edges.filter fun f => f.sourceId = ws.id && f.targetId = wt.id) = .ok res)
    (h0 : res.length ≠ 0)
    (hbest : (sortEdgeCandidatesDesc res).head? = some best) :
    findEdge g sN tN e th = .ok (g.edges.find? fun f => f.id = best.candidateId) := by
  have h1 : findEdge g sN tN e th = (do
      let candidateSource ← findNode g sN th
      let candidateTarget ← findNode g tN th
      match candidateSource, candidateTarget with
      | some cs, some ct =>
        let candidateEdges := g.edges.filter fun f =>
          f.sourceId = cs.id && f.targetId = ct.id
        if candidateEdges.length = 0 then
          pure none
        else do
          let candidates ← candidateEdges.foldlM (findEdgeStep e.id ee th) []
          if candidates.length = 0 then
            pure none
          else
            match (sortEdgeCandidatesDesc candidates).head? with
            | none => pure none
            | some best => pure (g.edges.find? fun f => f.id = best.candidateId)
      | _, _ => pure none) := by
    unfold findEdge
    rw [hee]
  rw [h1, hfs, hft]
  show (if (g.edges.filter fun f =>
      f.sourceId = ws.id && f.targetId = wt.id).length = 0 then
      (pure none : Except String (Option Edge))
    else do
      let candidates ← (g.edges.filter fun f =>
        f.sourceId = ws.id && f.targetId = wt.id).foldlM (findEdgeStep e.id ee th) []
      if candidates.length = 0 then
        pure none
      else
        match (sortEdgeCandidatesDesc candidates).head? with
        | none => pure none
        | some best => pure (g.edges.find? fun f => f.id = best.candidateId)) = _
  rw [if_neg hce0]
  show ((g.edges.filter fun f =>
      f.sourceId = ws.id && f.targetId = wt.id).foldlM (findEdgeStep e.id ee th) []).bind
    (fun candidates => if candidates.length = 0 then pure none
      else match (sortEdgeCandidatesDesc candidates).head? with
        | none => pure none
        | some best => pure (g.edges.find? fun f => f.id = best.candidateId)) = _
  show (List.foldlM (findEdgeStep e.id ee th) [] (g.edges.filter fun f =>
      f.sourceId = ws.id && f.targetId = wt.id)).bind
    (fun candidates => if candidates.length = 0 then pure none
      else match (sortEdgeCandidatesDesc candidates).head? with
        | none => pure none
        | some best => pure (g.edges.find? fun f => f.id = best.candidateId)) = _
  rw [hfold]
  show (if res.length = 0 then (pure none : Except String (Option Edge))
    else match (sortEdgeCandidatesDesc res).head? with
      | none => pure none
      | some best => pure (g.edges.find? fun f => f.id = best.candidateId)) = _
  rw [if_neg h0, hbest]
  rfl

/-- Under the C4 side conditions, every edge of the graph is
similarity-contained via its resolved endpoints. -/
theorem containsEdge_self (g : Graph) (e : Edge) (he : e ∈ g.edges)
    (sN tN : Node) (hsN : sN ∈ g.nodes) (htN : tN ∈ g.nodes)
    (hsid : sN.id = e.sourceId) (htid : tN.id = e.targetId)
    (hnode : ∀ u ∈ g.nodes, ∃ eu, u.embedding = some eu ∧ sumSqQ eu ≠ 0)
    (hnlen : ∀ u ∈ g.nodes, ∀ w ∈ g.nodes, ∀ eu ew,
      u.embedding = some eu → w.embedding = some ew → eu.length = ew.length)
    (hdistinct : ∀ u ∈ g.nodes, ∀ w ∈ g.nodes, u ≠ w → ∀ eu ew s,
      u.embedding = some eu → w.embedding = some ew →
      cosineSimilarity eu ew = .ok s → s < DEFAULT_THRESHOLD)
    (hedge : ∀ f ∈ g.edges, ∃ ef, f.embedding = some ef ∧ sumSqQ ef ≠ 0)
    (helen : ∀ f ∈ g.edges, ∀ f2 ∈ g.edges, ∀ ef ef2,
      f.embedding = some ef → f2.embedding = some ef2 → ef.length = ef2.length) :
    containsEdge g sN tN e DEFAULT_THRESHOLD = .ok true := by
  obtain ⟨ee, hee, hesq⟩ := hedge e he
  obtain ⟨ws, hfs, hwsmem, hwsid⟩ := findNode_id_self g sN hsN hnode hnlen hdistinct
  obtain ⟨wt, hft, hwtmem, hwtid⟩ := findNode_id_self g tN htN hnode hnlen hdistinct
  have hece : e ∈ g.edges.filter fun f => f.sourceId = ws.id && f.targetId = wt.id := by
    rw [List.mem_filter]
    refine ⟨he, ?_⟩
    simp [hwsid, hsid, hwtid, htid]
  have hce0 : (g.edges.filter fun f =>
      f.sourceId = ws.id && f.targetId = wt.id).length ≠ 0 := by
    intro h
    rw [List.length_eq_zero.mp h] at hece
    exact absurd hece (List.not_mem_nil e)
  have hok : ∀ f ∈ (g.edges.filter fun f => f.sourceId = ws.id && f.targetId = wt.id),
      ∃ ef s, f.embedding = some ef ∧ cosineSimilarity ee ef = .ok s := by
    intro f hf
    have hf' : f ∈ g.edges := List.mem_of_mem_filter hf
    obtain ⟨ef, hef, _⟩ := hedge f hf'
    obtain ⟨s, hs⟩ := cosineSimilarity_isOk ee ef (helen e he f hf' ee ef hee hef)
    exact ⟨ef, s, hef, hs⟩
  obtain ⟨res, hfold, hsound, hcomplete, _⟩ :=
    findEdge_fold_spec e.id ee DEFAULT_THRESHOLD
      (g.edges.filter fun f => f.sourceId = ws.id && f.targetId = wt.id) [] hok
  have hself :
      ({ referenceId := e.id, candidateId := e.id,
         similarity := 1 } : EdgeCandidate) ∈ res :=
    hcomplete e hece ee 1 hee (cosineSimilarity_self ee hesq)
      (by norm_num [DEFAULT_THRESHOLD])
  have h0 : res.length ≠ 0 := by
    intro h
    rw [List.length_eq_zero.mp h] at hself
    exact absurd hself (List.not_mem_nil _)
  obtain ⟨best, hbest, hbestmem⟩ := sortEdgeCandidatesDesc_ne_nil res h0
  obtain ⟨w, hw⟩ : ∃ w, (g.edges.find? fun f => f.id = best.candidateId) = some w := by
    apply Option.isSome_iff_exists.mp
    rw [List.find?_isSome]
    rcases hsound best hbestmem with h | ⟨f, hf, _, _, _, _, _, hbesteq⟩
    · exact absurd h (List.not_mem_nil best)
    · exact ⟨f, List.mem_of_mem_filter hf, by simp [hbesteq]⟩
  unfold containsEdge
  rw [findEdge_eval g sN tN e DEFAULT_THRESHOLD ee ws wt res best hee hfs hft hce0
    hfold h0 hbest, hw]
  rfl

theorem foldlM_id_of_steps {α : Type} (step : List α → α → Except String (List α)) :
    ∀ (l acc : List α), (∀ x ∈ l, ∀ a, step a x = .ok a) →
      List.foldlM step acc l = .ok acc := by
  intro l
  induction l with
  | nil => intro acc _; rfl
  | cons x rest ih =>
    intro acc h
    rw [List.foldlM_cons, h x (List.mem_cons_self _ _) acc]
    show List.foldlM step acc rest = .ok acc
    exact ih acc (fun y hy a => h y (List.mem_cons_of_mem _ hy) a)

theorem mergeNodeStep_id (g : Graph) (v : Node) (acc : List Node)
    (h : containsNode g v DEFAULT_THRESHOLD = .ok true) :
    mergeNodeStep g acc v = .ok acc := by
  unfold mergeNodeStep
  rw [h]
  rfl

theorem mergeEdgeStep_id (g : Graph) (f : Edge) (hf : f ∈ g.edges) (acc : List Edge)
    (hnode : ∀ u ∈ g.nodes, ∃ eu, u.embedding = some eu ∧ sumSqQ eu ≠ 0)
    (hnlen : ∀ u ∈ g.nodes, ∀ w ∈ g.nodes, ∀ eu ew,
      u.embedding = some eu → w.embedding = some ew → eu.length = ew.length)
    (hdistinct : ∀ u ∈ g.nodes, ∀ w ∈ g.nodes, u ≠ w → ∀ eu ew s,
      u.embedding = some eu → w.embedding = some ew →
      cosineSimilarity eu ew = .ok s → s < DEFAULT_THRESHOLD)
    (hedge : ∀ f2 ∈ g.edges, ∃ ef, f2.embedding = some ef ∧ sumSqQ ef ≠ 0)
    (helen : ∀ f2 ∈ g.edges, ∀ f3 ∈ g.edges, ∀ ef ef2,
      f2.embedding = some ef → f3.embedding = some ef2 → ef.length = ef2.length) :
    mergeEdgeStep g g acc f = .ok acc := by
  unfold mergeEdgeStep
  cases hs : g.nodes.find? (fun n => n.id = f.sourceId) with
  | none => rfl
  | some sN =>
    cases ht : g.nodes.find? (fun n => n.id = f.targetId) with
    | none => rfl
    | some tN =>
      have hsmem := List.mem_of_find?_eq_some hs
      have htmem := List.mem_of_find?_eq_some ht
      have hsid : sN.id = f.sourceId := by simpa using List.find?_some hs
      have htid : tN.id = f.targetId := by simpa using List.find?_some ht
      show (do
          let contained ← containsEdge g sN tN f DEFAULT_THRESHOLD
          if contained = true then pure acc else pure (acc ++ [f]) :
          Except String (List Edge)) = Except.ok acc
      rw [containsEdge_self g f hf sN tN hsmem htmem hsid htid hnode hnlen hdistinct
        hedge helen]
      rfl

/-- Claim C4, amended: merge is idempotent — merge(g, g) has exactly
g's nodes and edges — for every graph whose node and edge embeddings are
present, non-zero and of one common length per kind, and whose distinct
nodes are pairwise dissimilar (below the 0.5 threshold).  A present but
zero embedding already breaks the claim as stated, see the
counterexample. -/
theorem merge_idempotent (g : Graph)
    (hnode : ∀ u ∈ g.nodes, ∃ eu, u.embedding = some eu ∧ sumSqQ eu ≠ 0)
    (hnlen : ∀ u ∈ g.nodes, ∀ w ∈ g.nodes, ∀ eu ew,
      u.embedding = some eu → w.embedding = some ew → eu.length = ew.length)
    (hdistinct : ∀ u ∈ g.nodes, ∀ w ∈ g.nodes, u ≠ w → ∀ eu ew s,
      u.embedding = some eu → w.embedding = some ew →
      cosineSimilarity eu ew = .ok s → s < DEFAULT_THRESHOLD)
    (hedge : ∀ f ∈ g.edges, ∃ ef, f.embedding = some ef ∧ sumSqQ ef ≠ 0)
    (helen : ∀ f ∈ g.edges, ∀ f2 ∈ g.edges, ∀ ef ef2,
      f.embedding = some ef → f2.embedding = some ef2 → ef.length = ef2.length) :
    merge g g = .ok { id := freshGraphId, nodes := g.nodes, edges := g.edges } := by
  have hN : List.foldlM (mergeNodeStep g) g.nodes g.nodes = .ok g.nodes :=
    foldlM_id_of_steps _ g.nodes g.nodes (fun v hv acc =>
      mergeNodeStep_id g v acc (containsNode_self g v hv hnode hnlen))
  have hE : List.foldlM (mergeEdgeStep g g) g.edges g.edges = .ok g.edges :=
    foldlM_id_of_steps _ g.edges g.edges (fun f hf acc =>
      mergeEdgeStep_id g f hf acc hnode hnlen hdistinct hedge helen)
  have h1 : merge g g = (List.foldlM (mergeNodeStep g) g.nodes g.nodes).bind
      (fun nodes => Graph.mk freshGraphId nodes <$>
        List.foldlM (mergeEdgeStep g g) g.edges g.edges) := rfl
  rw [h1, hN, hE]
  rfl

/-- Counterexample to claim C4 as stated: the single node's embedding is
present but zero, so its cosine similarity with itself is 0 (the
zero-magnitude sentinel), below the 0.5 threshold — the node is not
similarity-contained in the graph and merge(g, g) duplicates it. -/
theorem merge_idempotence_cex :
    (∀ v ∈ zeroGraph.nodes, v.embedding.isSome) ∧
    zeroGraph.nodes.length = 1 ∧
    ∃ g', merge zeroGraph zeroGraph = .ok g' ∧ g'.nodes.length = 2 := by
  refine ⟨?_, rfl, ?_⟩
  · intro v hv
    rw [List.mem_singleton.mp hv]
    rfl
  have hcos0 : cosineSimilarity [0] [0] = .ok 0 := by
    unfold cosineSimilarity
    have hm : magnitudeR [0] = 0 := by
      unfold magnitudeR
      have h1 : sumSqQ ([0] : List ℚ) = 0 := by
        unfold sumSqQ
        norm_num
      rw [h1]
      norm_num [Real.sqrt_zero]
    rw [if_neg (not_not_intro rfl), if_neg (by simp), if_pos (Or.inl hm)]
  have hstep : findNodeStep zeroNode.id [0] DEFAULT_THRESHOLD [] zeroNode = .ok [] := by
    have h1 : findNodeStep zeroNode.id [0] DEFAULT_THRESHOLD [] zeroNode =
        (do
          let similarity ← cosineSimilarity [0] [0]
          if DEFAULT_THRESHOLD ≤ similarity then
            pure ([] ++
              [({ referenceId := zeroNode.id, candidateId := zeroNode.id,
                  similarity := similarity } : NodeCandidate)])
          else
            pure []) := rfl
    rw [h1, hcos0]
    show (if DEFAULT_THRESHOLD ≤ (0 : ℝ) then _ else _) = _
    rw [if_neg (by norm_num [DEFAULT_THRESHOLD])]
    rfl
  have hfold : List.foldlM (findNodeStep zeroNode.id [0] DEFAULT_THRESHOLD) []
      zeroGraph.nodes = .ok [] := by
    show List.foldlM _ [] [zeroNode] = _
    rw [List.foldlM_cons, hstep]
    rfl
  have hfindN : findNode zeroGraph zeroNode DEFAULT_THRESHOLD = .ok none := by
    have h1 : findNode zeroGraph zeroNode DEFAULT_THRESHOLD = (do
        let candidates ← List.foldlM (findNodeStep zeroNode.id [0] DEFAULT_THRESHOLD)
          [] zeroGraph.nodes
        if candidates.length = 0 then
          pure none
        else
          match (sortCandidatesDesc candidates).head? with
          | none => pure none
          | some best => pure (zeroGraph.nodes.find? fun n => n.id = best.candidateId)) :=
      rfl
    rw [h1, hfold]
    rfl
  have hcontains : containsNode zeroGraph zeroNode DEFAULT_THRESHOLD = .ok false := by
    unfold containsNode
    rw [hfindN]
    rfl
  have hnstep : mergeNodeStep zeroGraph [zeroNode] zeroNode = .ok [zeroNode, zeroNode] := by
    unfold mergeNodeStep
    rw [hcontains]
    rfl
  have hN : List.foldlM (mergeNodeStep zeroGraph) zeroGraph.nodes zeroGraph.nodes =
      .ok [zeroNode, zeroNode] := by
    show List.foldlM _ [zeroNode] [zeroNode] = _
    rw [List.foldlM_cons, hnstep]
    rfl
  refine ⟨{ id := freshGraphId, nodes := [zeroNode, zeroNode], edges := [] }, ?_, rfl⟩
  have h1 : merge zeroGraph zeroGraph =
      (List.foldlM (mergeNodeStep zeroGraph) zeroGraph.nodes zeroGraph.nodes).bind
      (fun nodes => Graph.mk freshGraphId nodes <$>
        List.foldlM (mergeEdgeStep zeroGraph zeroGraph) zeroGraph.edges
          zeroGraph.edges) := rfl
  rw [h1, hN]
  rfl

/-- Witness for the amended C4 on a one-node graph with a self-loop. -/
theorem merge_idempotent_witness :
    merge selfGraph selfGraph =
      .ok { id := freshGraphId, nodes := selfGraph.nodes, edges := selfGraph.edges } := by
  refine merge_idempotent selfGraph ?_ ?_ ?_ ?_ ?_
  · intro v hv
    rw [List.mem_singleton.mp hv]
    exact ⟨[1], rfl, by norm_num [sumSqQ]⟩
  · intro u hu w hw eu ew h1 h2
    rw [List.mem_singleton.mp hu] at h1
    rw [List.mem_singleton.mp hw] at h2
    have heu : eu = [1] := (Option.some.inj h1).symm
    have hew : ew = [1] := (Option.some.inj h2).symm
    rw [heu, hew]
  · intro u hu w hw hne _ _ _ _ _ _
    exact absurd ((List.mem_singleton.mp hu).trans (List.mem_singleton.mp hw).symm) hne
  · intro f hf
    rw [List.mem_singleton.mp hf]
    exact ⟨[1], rfl, by norm_num [sumSqQ]⟩
  · intro f hf f2 hf2 ef ef2 h1 h2
    rw [List.mem_singleton.mp hf] at h1
    rw [List.mem_singleton.mp hf2] at h2
    have h1' : ef = [1] := (Option.some.inj h1).symm
    have h2' : ef2 = [1] := (Option.some.inj h2).symm
    rw [h1', h2']

/-! ## Theorems for claim C5 -/

theorem hasDupIds_eq_false_iff :
    ∀ (l seen : List String),
      hasDupIds l seen = false ↔ l.Nodup ∧ ∀ x ∈ l, x ∉ seen := by
  intro l
  induction l with
  | nil =>
    intro seen
    simp [hasDupIds]
  | cons x rest ih =>
    intro seen
    unfold hasDupIds
    by_cases hx : seen.contains x
    · rw [if_pos hx]
      simp only [Bool.true_eq_false, false_iff, not_and]
      intro _ hall
      exact absurd (List.elem_iff.mp hx) (hall x (List.mem_cons_self _ _))
    · rw [if_neg hx]
      rw [ih (x :: seen)]
      constructor
      · rintro ⟨hnd, hall⟩
        refine ⟨List.nodup_cons.mpr ⟨?_, hnd⟩, ?_⟩
        · intro hxm
          exact absurd (List.mem_cons_self x seen) (hall x hxm)
        · intro y hy
          rcases List.mem_cons.mp hy with rfl | hy'
          · intro hmem
            exact hx (List.elem_iff.mpr hmem)
          · intro hmem
            exact absurd (List.mem_cons_of_mem _ hmem) (hall y hy')
      · rintro ⟨hnd, hall⟩
        obtain ⟨hxrest, hnd'⟩ := List.nodup_cons.mp hnd
        refine ⟨hnd', ?_⟩
        intro y hy hmem
        rcases List.mem_cons.mp hmem with rfl | hmem'
        · exact hxrest hy
        · exact hall y (List.mem_cons_of_mem _ hy) hmem'

theorem isValidGraph_iff (g : Graph) :
    isValidGraph g = true ↔
      (g.nodes.map (·.id)).Nodup ∧ (g.edges.map (·.id)).Nodup := by
  unfold isValidGraph
  rw [Bool.and_eq_true, Bool.not_eq_true', Bool.not_eq_true']
  rw [hasDupIds_eq_false_iff, hasDupIds_eq_false_iff]
  simp

/-- Claim C5: `match` fails exactly on duplicate node or edge ids in
either argument graph (that is what `isValidGraph` checks); when both
graphs validate it delegates to `similarSubGraphs` under the default
options, returning the first yielded subgraph or none. -/
theorem match_validates (g q : Graph) :
    (isValidGraph g = false → matchG g q = .error "Invalid graph") ∧
    (isValidGraph g = true → isValidGraph q = false →
      matchG g q = .error "Invalid query graph") ∧
    (isValidGraph g = true → isValidGraph q = true →
      matchG g q = (similarSubGraphsList g q DEFAULT_N DEFAULT_THRESHOLD).map
        fun subs => (subs.take 1).head?) ∧
    (isValidGraph g = true ↔
      (g.nodes.map (·.id)).Nodup ∧ (g.edges.map (·.id)).Nodup) := by
  refine ⟨?_, ?_, ?_, isValidGraph_iff g⟩
  · intro hg
    unfold matchG
    rw [if_pos hg]
  · intro hg hq
    unfold matchG
    rw [if_neg (by simp [hg]), if_pos hq]
  · intro hg hq
    unfold matchG
    rw [if_neg (by simp [hg]), if_neg (by simp [hq])]
    cases hs : similarSubGraphsList g q DEFAULT_N DEFAULT_THRESHOLD with
    | error msg => rfl
    | ok subs => rfl

/-- Witness for C5 at concrete graphs. -/
theorem match_validates_witness :
    matchG dupGraph okGraph = .error "Invalid graph" ∧
    matchG okGraph dupGraph = .error "Invalid query graph" ∧
    matchG okGraph okGraph =
      (similarSubGraphsList okGraph okGraph DEFAULT_N DEFAULT_THRESHOLD).map
        (fun subs => (subs.take 1).head?) :=
  ⟨(match_validates dupGraph okGraph).1 (by decide),
   (match_validates okGraph dupGraph).2.1 (by decide) (by decide),
   (match_validates okGraph okGraph).2.2.1 (by decide) (by decide)⟩

/-! ## Witness for claim C9 -/

/-- Witness for C9: with n = 1 only the first qualifying edge is in the
pool; edge_2 qualifies but is beyond the cap. -/
theorem iterateEdges_pool_bounded_witness :
    DEFAULT_N = 10 ∧
    iterateEdgesList poolGraph ["node_a"] 1 =
      .ok ((poolGraph.edges.filter fun e =>
        (["node_a"] : List String).contains e.sourceId &&
        (["node_a"] : List String).contains e.targetId).take 1) ∧
    ∀ l, iterateEdgesList poolGraph ["node_a"] 1 = .ok l →
      l.length ≤ 1 ∧
      ∀ e, ((["node_a"] : List String).contains e.sourceId &&
          (["node_a"] : List String).contains e.targetId) = true →
        e ∉ (poolGraph.edges.filter fun e =>
          (["node_a"] : List String).contains e.sourceId &&
          (["node_a"] : List String).contains e.targetId).take 1 →
        e ∉ l :=
  iterateEdges_pool_bounded poolGraph ["node_a"] 1 (by decide)

end Ontology
